import Mathlib

/-!
Verification of the extraction-normalization-reconciliation pipeline of
`src/app.py` (kingdom-rank-app), via a shallow embedding in Lean 4.

The embedding covers:
* the record normalizer of `analyze_images_with_gemini` (lines 160-168):
  `pd.DataFrame` assembly, column rename, `drop_duplicates(subset=['順位','将軍名'])`,
  `pd.to_numeric(..., errors='coerce')`, `sort_values('順位')`;
* the per-image accumulation loop (lines 138-155);
* `find_closest_name` (lines 124-127), including a faithful embedding of
  CPython `difflib.get_close_matches` / `SequenceMatcher` (ratio,
  quick_ratio, real_quick_ratio, find_longest_match with autojunk);
* the module-level reconciliation join (lines 218-231);
* `get_best_model` (lines 112-122);
* the module-level result display (lines 253-254).

Modelling conventions:
* JSON scalar values are an inductive `JVal`; JSON numbers (Python floats)
  are modelled as exact rationals, which agrees with float semantics except
  for rounding effects that require astronomically long inputs to observe;
* field values of extracted records are limited to JSON scalars, matching
  the schema the prompt requests (nested arrays/objects as field values are
  outside the modelled fragment);
* Python exceptions are modelled by `Except`/`Option`;
* the external inference call and `json.loads` are modelled as an oracle
  outcome per image (`ImageOutcome`).
-/

namespace KingdomRank

/-- A scalar JSON value as produced by `json.loads` for a record field. -/
inductive JVal where
  | num (q : ℚ)
  | str (s : String)
  | boolean (b : Bool)
  | null
deriving DecidableEq, Repr

/-- One raw extracted record (one JSON object of the model's array).
A field is `none` when the corresponding key is absent from the object. -/
structure RawRecord where
  rank : Option JVal
  name : Option JVal
  score : Option JVal
deriving DecidableEq, Repr

/-- Value of a cell as seen by `drop_duplicates` hashing.  In pandas a
missing key becomes NaN and a JSON `null` becomes `None`; `duplicated`
treats both as the same missing value.  Python equality makes `True == 1`
and `False == 0`, so booleans collapse to numbers. -/
inductive KeyVal where
  | missing
  | num (q : ℚ)
  | str (s : String)
deriving DecidableEq, Repr

/-- Normalisation of a cell to its `drop_duplicates` key value. -/
def normKey : Option JVal → KeyVal
  | none => .missing
  | some .null => .missing
  | some (.boolean b) => .num (if b then 1 else 0)
  | some (.num q) => .num q
  | some (.str s) => .str s

/-- The composite `drop_duplicates(subset=['順位', '将軍名'])` key of a record
(line 164 of `src/app.py`): the raw rank and name cells. -/
def dedupKey (r : RawRecord) : KeyVal × KeyVal :=
  (normKey r.rank, normKey r.name)

/-- One step of first-occurrence deduplication: keep the record unless an
earlier record with the same key was already kept. -/
def dedupStep (acc : List RawRecord) (r : RawRecord) : List RawRecord :=
  if acc.any (fun x => dedupKey x = dedupKey r) then acc else acc ++ [r]

/-- First-occurrence deduplication: the effect of
`df.drop_duplicates(subset=['順位', '将軍名'])` (keep='first') on the row list. -/
def dedup (rs : List RawRecord) : List RawRecord :=
  rs.foldl dedupStep []

/-- Digits of a decimal literal to a natural number. -/
def digitsToNat (ds : List Char) : ℕ :=
  ds.foldl (fun n c => 10 * n + (c.toNat - 48)) 0

/-- Strip leading and trailing spaces (numeric parsing tolerates them). -/
def stripSpaces (l : List Char) : List Char :=
  ((l.dropWhile (fun c => c = ' ')).reverse.dropWhile (fun c => c = ' ')).reverse

/-- Parse the exponent part after an `e`/`E`. -/
def parseExp (l : List Char) : Option ℤ :=
  match l with
  | [] => none
  | c :: rest =>
    let (sgn, ds) : ℤ × List Char :=
      if c = '+' then (1, rest) else if c = '-' then (-1, rest) else (1, l)
    if ds ≠ [] ∧ ds.all Char.isDigit then some (sgn * digitsToNat ds) else none

/-- Parse an unsigned decimal literal (integer part, optional fraction,
optional exponent), as accepted by pandas numeric coercion of strings. -/
def parseUnsigned (l : List Char) : Option ℚ :=
  let intPart := l.takeWhile Char.isDigit
  let rest1 := l.dropWhile Char.isDigit
  match rest1 with
  | [] => if intPart = [] then none else some (digitsToNat intPart)
  | '.' :: rest2 =>
    let fracPart := rest2.takeWhile Char.isDigit
    let rest3 := rest2.dropWhile Char.isDigit
    if intPart = [] ∧ fracPart = [] then none
    else
      let base : ℚ := (digitsToNat intPart : ℚ) + (digitsToNat fracPart : ℚ) / (10 ^ fracPart.length)
      match rest3 with
      | [] => some base
      | 'e' :: r => (parseExp r).map (fun e => base * (10 : ℚ) ^ e)
      | 'E' :: r => (parseExp r).map (fun e => base * (10 : ℚ) ^ e)
      | _ => none
  | 'e' :: r =>
    if intPart = [] then none
    else (parseExp r).map (fun e => (digitsToNat intPart : ℚ) * (10 : ℚ) ^ e)
  | 'E' :: r =>
    if intPart = [] then none
    else (parseExp r).map (fun e => (digitsToNat intPart : ℚ) * (10 : ℚ) ^ e)
  | _ => none

/-- Numeric parsing of a string cell, as in `pd.to_numeric` on strings. -/
def parseNumericString (s : String) : Option ℚ :=
  match stripSpaces s.data with
  | '+' :: rest => parseUnsigned rest
  | '-' :: rest => (parseUnsigned rest).map Neg.neg
  | l => parseUnsigned l

/-- `pd.to_numeric(cell, errors='coerce')` on one cell of the rank column
(line 166 of `src/app.py`): numbers and booleans are numeric, numeric
strings parse, everything else becomes NaN (`none`). -/
def toNumericCell : Option JVal → Option ℚ
  | none => none
  | some .null => none
  | some (.num q) => some q
  | some (.boolean b) => some (if b then 1 else 0)
  | some (.str s) => parseNumericString s

/-- A row of the normalised table: coerced rank, untouched name and score. -/
structure Row where
  rank : Option ℚ
  name : Option JVal
  score : Option JVal
deriving DecidableEq, Repr

/-- Per-record effect of the rank coercion of line 166; name and score
columns are not touched by the normalizer. -/
def toRow (r : RawRecord) : Row :=
  ⟨toNumericCell r.rank, r.name, r.score⟩

/-- Comparison used by `sort_values('順位')`: ascending on rank, with NaN
(`none`) sorting last (the pandas default `na_position='last'`). -/
def rankLe (x y : Row) : Bool :=
  match x.rank, y.rank with
  | some a, some b => a ≤ b
  | some _, none => true
  | none, some _ => false
  | none, none => true

/-- `rankLe` as a relation, for the sort. -/
def rowLe (x y : Row) : Prop := rankLe x y = true

instance rowLe.decidable : DecidableRel rowLe := fun x y => by
  unfold rowLe
  infer_instance

instance rowLe.total : IsTotal Row rowLe := by
  constructor
  intro x y
  unfold rowLe rankLe
  match x.rank, y.rank with
  | some a, some b =>
    rcases le_total a b with h | h
    · exact Or.inl (by simpa using h)
    · exact Or.inr (by simpa using h)
  | some _, none => exact Or.inl rfl
  | none, some _ => exact Or.inr rfl
  | none, none => exact Or.inl rfl

instance rowLe.trans : IsTrans Row rowLe := by
  constructor
  intro x y z
  unfold rowLe rankLe
  match x.rank, y.rank, z.rank with
  | some a, some b, some c =>
    intro h1 h2
    simp only [decide_eq_true_eq] at h1 h2 ⊢
    exact le_trans h1 h2
  | some _, some _, none => intro _ _; rfl
  | some _, none, some _ => intro _ h; exact absurd h (by simp)
  | some _, none, none => intro _ _; rfl
  | none, some _, _ => intro h _; exact absurd h (by simp)
  | none, none, some _ => intro _ h; exact absurd h (by simp)
  | none, none, none => intro _ _; rfl

/-- The exception raised by `drop_duplicates` when a subset column is
absent from the assembled DataFrame. -/
inductive PipeError where
  | keyError
deriving DecidableEq, Repr

/-- The record normalizer, lines 160-168 of `src/app.py`:
```
if not all_data: return pd.DataFrame()
df = pd.DataFrame(all_data)
df = df.rename(columns={'rank': '順位', 'name': '将軍名', 'score': '武功'})
df = df.drop_duplicates(subset=['順位', '将軍名'])
if '順位' in df.columns:
    df['順位'] = pd.to_numeric(df['順位'], errors='coerce')
    df = df.sort_values('順位')
return df
```
A DataFrame built from a list of dicts has a column iff some dict carries
the key, so `drop_duplicates` raises `KeyError` iff no record has a rank
key or no record has a name key; when it succeeds the guard
`'順位' in df.columns` is therefore true.  `sort_values` uses an unstable
sort whose order among equal ranks is unspecified; the embedding fixes one
correct order (insertion sort on `rowLe`) and the theorems below only use
order-insensitive consequences. -/
def normalize (rs : List RawRecord) : Except PipeError (List Row) :=
  if rs.isEmpty then .ok []
  else if ¬ (rs.any (fun r => r.rank.isSome)) ∨ ¬ (rs.any (fun r => r.name.isSome)) then
    .error .keyError
  else
    .ok (((dedup rs).map toRow).insertionSort rowLe)

end KingdomRank

/-!
## Embedding of CPython `difflib` (as used by `find_closest_name`)

`find_closest_name` (lines 124-127 of `src/app.py`) calls
`difflib.get_close_matches(target_name, name_list, n=1, cutoff=0.6)`, which
constructs a `SequenceMatcher()` (so `isjunk` is `None` and `autojunk` is
`True`), sets `seq2` to the candidate word and `seq1` to each roster entry
in turn.  Strings are modelled as `List Char`; code points match Python's
string semantics.  Float ratios are modelled as exact rationals (float
rounding is observable only on inputs of astronomical length).
-/

namespace Difflib

/-- Out-of-range placeholder for `List.getD`; every proof only evaluates
`getD` at in-range indices. -/
def padChar : Char := Char.ofNat 0

/-- `__chain_b` autojunk: with `autojunk=True`, when `len(b) >= 200` the
elements appearing more than `len(b) // 100 + 1` times are "popular" and
are deleted from `b2j`. -/
def isPopular (b : List Char) (c : Char) : Bool :=
  decide (200 ≤ b.length) && decide (b.length / 100 + 1 < b.count c)

/-- The ascending list of indices of `c` in `b` (the `b2j` entry before
the autojunk purge). -/
def positions (b : List Char) (c : Char) : List ℕ :=
  (List.range b.length).filter (fun j => b.getD j padChar = c)

/-- `self.b2j` after the autojunk purge: indices of `c` in `b`, or `[]`
for popular elements (and for elements not occurring in `b`). -/
def b2j (b : List Char) (c : Char) : List ℕ :=
  if isPopular b c then [] else positions b c

/-- `self.bjunk.__contains__`: empty, because `get_close_matches` builds
`SequenceMatcher()` with `isjunk=None` (autojunk populates `bpopular`,
which is not consulted by the extension loops). -/
def isbjunk (_ : Char) : Bool := false

/-- The running `besti, bestj, bestsize` triple of `find_longest_match`. -/
structure Best where
  i : ℕ
  j : ℕ
  size : ℕ
deriving DecidableEq, Repr

/-- Inner step of the `find_longest_match` core loop, for one `j` in
`b2j[a[i]]`: `k = j2len.get(j-1, 0) + 1; newj2len[j] = k;` and the best
triple is replaced when `k > bestsize`. -/
def stepJ (i : ℕ) (prev : ℕ → ℕ) (best : Best) (j : ℕ) : Best :=
  let k := (if j = 0 then 0 else prev (j - 1)) + 1
  if best.size < k then ⟨i + 1 - k, j + 1 - k, k⟩ else best

/-- The `j`s visited in row `i`: `b2j[a[i]]` restricted to `blo <= j < bhi`
(the source skips `j < blo` with `continue` and leaves the loop at
`j >= bhi` with `break`; since the index lists are ascending this is the
same as filtering). -/
def rowJs (a b : List Char) (blo bhi i : ℕ) : List ℕ :=
  (b2j b (a.getD i padChar)).filter (fun j => decide (blo ≤ j) && decide (j < bhi))

/-- One iteration of the outer `for i in range(alo, ahi)` loop of
`find_longest_match`: fold `stepJ` over the row's `j`s and rebuild
`j2len` (`newj2len[j] = j2len.get(j-1, 0) + 1` for the visited `j`s,
everything else absent). -/
def processRow (a b : List Char) (blo bhi : ℕ) (st : Best × (ℕ → ℕ)) (i : ℕ) :
    Best × (ℕ → ℕ) :=
  let js := rowJs a b blo bhi i
  let best := js.foldl (stepJ i st.2) st.1
  let next : ℕ → ℕ := fun j =>
    if js.contains j then (if j = 0 then 0 else st.2 (j - 1)) + 1 else 0
  (best, next)

/-- The core dynamic-programming loop of `find_longest_match`, starting
from `besti, bestj, bestsize = alo, blo, 0` and an empty `j2len`. -/
def coreLoop (a b : List Char) (alo ahi blo bhi : ℕ) : Best :=
  ((List.range' alo (ahi - alo)).foldl (processRow a b blo bhi) (⟨alo, blo, 0⟩, fun _ => 0)).1

/-- First extension loop: `while besti > alo and bestj > blo and
not isbjunk(b[bestj-1]) and a[besti-1] == b[bestj-1]`; returns the number
of backward steps taken. -/
def extendBack (a b : List Char) (alo blo : ℕ) (besti bestj : ℕ) : ℕ :=
  if h : alo < besti ∧ blo < bestj ∧ isbjunk (b.getD (bestj - 1) padChar) = false ∧
      a.getD (besti - 1) padChar = b.getD (bestj - 1) padChar then
    extendBack a b alo blo (besti - 1) (bestj - 1) + 1
  else 0
termination_by besti
decreasing_by omega

/-- Second extension loop: `while besti+bestsize < ahi and bestj+bestsize < bhi
and not isbjunk(b[bestj+bestsize]) and a[besti+bestsize] == b[bestj+bestsize]`;
returns the number of forward steps taken. -/
def extendFwd (a b : List Char) (ahi bhi : ℕ) (besti bestj size : ℕ) : ℕ :=
  if h : besti + size < ahi ∧ bestj + size < bhi ∧
      isbjunk (b.getD (bestj + size) padChar) = false ∧
      a.getD (besti + size) padChar = b.getD (bestj + size) padChar then
    extendFwd a b ahi bhi besti bestj (size + 1) + 1
  else 0
termination_by ahi - (besti + size)
decreasing_by omega

/-- Third extension loop (junk-adjacent backward); its guard requires
`isbjunk(b[bestj-1])`, which is always false here, so it never steps. -/
def extendBackJunk (a b : List Char) (alo blo : ℕ) (besti bestj : ℕ) : ℕ :=
  if h : alo < besti ∧ blo < bestj ∧ isbjunk (b.getD (bestj - 1) padChar) = true ∧
      a.getD (besti - 1) padChar = b.getD (bestj - 1) padChar then
    extendBackJunk a b alo blo (besti - 1) (bestj - 1) + 1
  else 0
termination_by besti
decreasing_by omega

/-- Fourth extension loop (junk-adjacent forward); never steps, as its
guard also requires `isbjunk`. -/
def extendFwdJunk (a b : List Char) (ahi bhi : ℕ) (besti bestj size : ℕ) : ℕ :=
  if h : besti + size < ahi ∧ bestj + size < bhi ∧
      isbjunk (b.getD (bestj + size) padChar) = true ∧
      a.getD (besti + size) padChar = b.getD (bestj + size) padChar then
    extendFwdJunk a b ahi bhi besti bestj (size + 1) + 1
  else 0
termination_by ahi - (besti + size)
decreasing_by omega

/-- Effect of the first extension loop on the best triple
(`besti, bestj, bestsize = besti-k, bestj-k, bestsize+k` for `k` steps). -/
def afterBack (a b : List Char) (alo blo : ℕ) (bst : Best) : Best :=
  ⟨bst.i - extendBack a b alo blo bst.i bst.j,
   bst.j - extendBack a b alo blo bst.i bst.j,
   bst.size + extendBack a b alo blo bst.i bst.j⟩

/-- Effect of the second extension loop on the best triple. -/
def afterFwd (a b : List Char) (ahi bhi : ℕ) (bst : Best) : Best :=
  ⟨bst.i, bst.j, bst.size + extendFwd a b ahi bhi bst.i bst.j bst.size⟩

/-- Effect of the third extension loop on the best triple. -/
def afterBackJunk (a b : List Char) (alo blo : ℕ) (bst : Best) : Best :=
  ⟨bst.i - extendBackJunk a b alo blo bst.i bst.j,
   bst.j - extendBackJunk a b alo blo bst.i bst.j,
   bst.size + extendBackJunk a b alo blo bst.i bst.j⟩

/-- Effect of the fourth extension loop on the best triple. -/
def afterFwdJunk (a b : List Char) (ahi bhi : ℕ) (bst : Best) : Best :=
  ⟨bst.i, bst.j, bst.size + extendFwdJunk a b ahi bhi bst.i bst.j bst.size⟩

/-- `SequenceMatcher.find_longest_match(alo, ahi, blo, bhi)`: the core loop
followed by the four extension loops, in source order. -/
def findLongestMatch (a b : List Char) (alo ahi blo bhi : ℕ) : Best :=
  afterFwdJunk a b ahi bhi (afterBackJunk a b alo blo
    (afterFwd a b ahi bhi (afterBack a b alo blo (coreLoop a b alo ahi blo bhi))))

end Difflib

namespace Difflib

/-- Membership in `positions`. -/
theorem mem_positions {b : List Char} {c : Char} {j : ℕ} :
    j ∈ positions b c ↔ j < b.length ∧ b.getD j padChar = c := by
  simp [positions, List.mem_filter, List.mem_range]

/-- Membership in `b2j` gives a real occurrence. -/
theorem of_mem_b2j {b : List Char} {c : Char} {j : ℕ} (h : j ∈ b2j b c) :
    j < b.length ∧ b.getD j padChar = c := by
  unfold b2j at h
  split at h
  · simp at h
  · exact mem_positions.mp h

/-- Unpacking membership in a row's `j` list. -/
theorem of_mem_rowJs {a b : List Char} {blo bhi i j : ℕ} (h : j ∈ rowJs a b blo bhi i) :
    j ∈ b2j b (a.getD i padChar) ∧ blo ≤ j ∧ j < bhi := by
  simp only [rowJs, List.mem_filter, Bool.and_eq_true, decide_eq_true_eq] at h
  exact ⟨h.1, h.2.1, h.2.2⟩

/-- A `j` visited in row `i` is an occurrence in `b` of the row's char. -/
theorem char_eq_of_mem_rowJs {a b : List Char} {blo bhi i j : ℕ}
    (h : j ∈ rowJs a b blo bhi i) :
    j < b.length ∧ b.getD j padChar = a.getD i padChar :=
  of_mem_b2j (of_mem_rowJs h).1

/-- The characters of a matching block agree position by position. -/
def MatchAt (a b : List Char) (i j k : ℕ) : Prop :=
  ∀ t, t < k → a.getD (i + t) padChar = b.getD (j + t) padChar

/-- Soundness of a `Best` triple for the range `[alo, ahi) × [blo, bhi)`:
the block lies inside the range and its characters match. -/
structure BestInv (a b : List Char) (alo ahi blo bhi : ℕ) (bst : Best) : Prop where
  lo_i : alo ≤ bst.i
  hi_i : bst.i + bst.size ≤ ahi
  lo_j : blo ≤ bst.j
  hi_j : bst.j + bst.size ≤ bhi
  matched : MatchAt a b bst.i bst.j bst.size

/-- Invariant of the `j2len` map after the rows `[alo, i)` have been
processed: a positive entry `f j = ℓ` records a diagonal run of length `ℓ`
ending at row `i - 1`, column `j`, all of whose columns were visited. -/
def J2lenInv (a b : List Char) (alo blo bhi i : ℕ) (f : ℕ → ℕ) : Prop :=
  ∀ j, 0 < f j → blo + f j ≤ j + 1 ∧ alo + f j ≤ i ∧
    ∀ t, t < f j → (j - t) ∈ rowJs a b blo bhi (i - 1 - t)

/-- The rebuilt `j2len` of `processRow` keeps the invariant one row later. -/
theorem j2lenInv_step {a b : List Char} {alo blo bhi i : ℕ} {f g : ℕ → ℕ}
    (hf : J2lenInv a b alo blo bhi i f) (hia : alo ≤ i)
    (hg : ∀ j, g j = if (rowJs a b blo bhi i).contains j then (if j = 0 then 0 else f (j - 1)) + 1 else 0) :
    J2lenInv a b alo blo bhi (i + 1) g := by
  intro j hj
  rw [hg j] at hj ⊢
  by_cases hmem : (rowJs a b blo bhi i).contains j = true
  · have hjmem : j ∈ rowJs a b blo bhi i := by simpa using hmem
    have hblo : blo ≤ j := (of_mem_rowJs hjmem).2.1
    rw [if_pos hmem] at hj ⊢
    by_cases hj0 : j = 0
    · rw [if_pos hj0] at hj ⊢
      refine ⟨by omega, by omega, ?_⟩
      intro t ht
      have ht0 : t = 0 := by omega
      subst ht0
      simpa using hjmem
    · rw [if_neg hj0] at hj ⊢
      by_cases hprev : 0 < f (j - 1)
      · obtain ⟨h1, h2, h3⟩ := hf (j - 1) hprev
        refine ⟨by omega, by omega, ?_⟩
        intro t ht
        match t with
        | 0 => simpa using hjmem
        | Nat.succ s =>
          have hs : s < f (j - 1) := by omega
          have := h3 s hs
          have e1 : j - (s + 1) = j - 1 - s := by omega
          have e2 : (i + 1) - 1 - (s + 1) = i - 1 - s := by
            have h4 : s + 1 ≤ f (j - 1) := hs
            omega
          rw [e1, e2]
          exact this
      · have hz : f (j - 1) = 0 := by omega
        rw [hz]
        refine ⟨by omega, by omega, ?_⟩
        intro t ht
        have ht0 : t = 0 := by omega
        subst ht0
        simpa using hjmem
  · rw [if_neg hmem] at hj
    omega

/-- `stepJ` keeps the best-block invariant. -/
theorem stepJ_inv {a b : List Char} {alo ahi blo bhi i j : ℕ} {f : ℕ → ℕ} {bst : Best}
    (hb : BestInv a b alo ahi blo bhi bst) (hf : J2lenInv a b alo blo bhi i f)
    (hia : alo ≤ i) (hia2 : i < ahi) (hj : j ∈ rowJs a b blo bhi i) :
    BestInv a b alo ahi blo bhi (stepJ i f bst j) := by
  have hs : stepJ i f bst j =
      if bst.size < (if j = 0 then 0 else f (j - 1)) + 1 then
        ⟨i + 1 - ((if j = 0 then 0 else f (j - 1)) + 1),
         j + 1 - ((if j = 0 then 0 else f (j - 1)) + 1),
         (if j = 0 then 0 else f (j - 1)) + 1⟩
      else bst := rfl
  rw [hs]
  set ℓ := (if j = 0 then 0 else f (j - 1)) with hℓ
  by_cases hlt : bst.size < ℓ + 1
  case neg =>
    rw [if_neg hlt]
    exact hb
  case pos =>
    rw [if_pos hlt]
    have hblo : blo ≤ j := (of_mem_rowJs hj).2.1
    have hbhi : j < bhi := (of_mem_rowJs hj).2.2
    -- the length of the diagonal run ending just before (i, j)
    have key : ∀ u, u < ℓ + 1 → (j - u) ∈ rowJs a b blo bhi (i - u) ∧ blo + u ≤ j ∧ alo + u ≤ i := by
      intro u hu
      match u with
      | 0 => exact ⟨by simpa using hj, by omega, by omega⟩
      | Nat.succ s =>
        have hj0 : ¬ j = 0 := by
          intro h0
          rw [hℓ] at hu
          simp [h0] at hu
        simp only [if_neg hj0] at hℓ
        have hs : s < f (j - 1) := by omega
        have hpos : 0 < f (j - 1) := by omega
        obtain ⟨h1, h2, h3⟩ := hf (j - 1) hpos
        have hm := h3 s hs
        have e1 : j - (s + 1) = j - 1 - s := by omega
        have e2 : i - (s + 1) = i - 1 - s := by omega
        rw [e1, e2]
        exact ⟨hm, by omega, by omega⟩
    have hub : ℓ ≤ j ∧ ℓ ≤ i := by
      have := key ℓ (by omega)
      omega
    constructor
    · show alo ≤ i + 1 - (ℓ + 1)
      have := (key ℓ (by omega)).2.2
      omega
    · show i + 1 - (ℓ + 1) + (ℓ + 1) ≤ ahi
      omega
    · show blo ≤ j + 1 - (ℓ + 1)
      have := (key ℓ (by omega)).2.1
      omega
    · show j + 1 - (ℓ + 1) + (ℓ + 1) ≤ bhi
      omega
    · show MatchAt a b (i + 1 - (ℓ + 1)) (j + 1 - (ℓ + 1)) (ℓ + 1)
      intro t ht
      set u := ℓ - t with hu
      have hu1 : u < ℓ + 1 := by omega
      obtain ⟨hmem, _, _⟩ := key u hu1
      have hchar := char_eq_of_mem_rowJs hmem
      have e1 : i + 1 - (ℓ + 1) + t = i - u := by omega
      have e2 : j + 1 - (ℓ + 1) + t = j - u := by omega
      rw [e1, e2, hchar.2]

/-- Folding `stepJ` over any sublist of the row's `j`s keeps the invariant. -/
theorem foldl_stepJ_inv {a b : List Char} {alo ahi blo bhi i : ℕ} {f : ℕ → ℕ}
    (hf : J2lenInv a b alo blo bhi i f) (hia : alo ≤ i) (hia2 : i < ahi) :
    ∀ (js : List ℕ) (bst : Best), (∀ j ∈ js, j ∈ rowJs a b blo bhi i) →
      BestInv a b alo ahi blo bhi bst →
      BestInv a b alo ahi blo bhi (js.foldl (stepJ i f) bst) := by
  intro js
  induction js with
  | nil => intro bst _ hb; exact hb
  | cons j rest ih =>
    intro bst hmem hb
    exact ih _ (fun x hx => hmem x (List.mem_cons_of_mem _ hx))
      (stepJ_inv hb hf hia hia2 (hmem j (List.mem_cons_self _ _)))

/-- The outer fold over the rows keeps both invariants. -/
theorem coreFold_inv {a b : List Char} {alo ahi blo bhi : ℕ} :
    ∀ (n i : ℕ) (st : Best × (ℕ → ℕ)), alo ≤ i → i + n ≤ ahi →
      BestInv a b alo ahi blo bhi st.1 → J2lenInv a b alo blo bhi i st.2 →
      BestInv a b alo ahi blo bhi (((List.range' i n).foldl (processRow a b blo bhi) st).1) := by
  intro n
  induction n with
  | zero => intro i st _ _ hb _; simpa using hb
  | succ n ih =>
    intro i st hi hn hb hf
    rw [List.range'_succ, List.foldl_cons]
    apply ih (i + 1)
    · omega
    · omega
    · exact foldl_stepJ_inv hf hi (by omega) _ _ (fun j hj => hj) hb
    · exact j2lenInv_step hf hi (fun j => rfl)

/-- Soundness of the core loop. -/
theorem coreLoop_inv {a b : List Char} {alo ahi blo bhi : ℕ}
    (h1 : alo ≤ ahi) (h2 : blo ≤ bhi) :
    BestInv a b alo ahi blo bhi (coreLoop a b alo ahi blo bhi) := by
  unfold coreLoop
  apply coreFold_inv (ahi - alo) alo
  · exact le_refl alo
  · omega
  · exact ⟨le_refl alo, by simpa using h1, le_refl blo, by simpa using h2, fun t ht => by simp at ht⟩
  · intro j hj
    simp at hj

end Difflib

namespace Difflib

/-- Soundness of the first extension loop: within bounds, and every
extended position matches. -/
theorem extendBack_sound (a b : List Char) (alo blo : ℕ) :
    ∀ bi bj, alo ≤ bi → blo ≤ bj →
      alo + extendBack a b alo blo bi bj ≤ bi ∧
      blo + extendBack a b alo blo bi bj ≤ bj ∧
      ∀ t, t < extendBack a b alo blo bi bj →
        a.getD (bi - extendBack a b alo blo bi bj + t) padChar
          = b.getD (bj - extendBack a b alo blo bi bj + t) padChar := by
  intro bi
  induction bi using Nat.strong_induction_on with
  | _ bi ih =>
    intro bj hai hbj
    rw [extendBack]
    split
    case isTrue h =>
      obtain ⟨h1, h2, _, h4⟩ := h
      obtain ⟨g1, g2, g3⟩ := ih (bi - 1) (by omega) (bj - 1) (by omega) (by omega)
      set d := extendBack a b alo blo (bi - 1) (bj - 1) with hd
      refine ⟨by omega, by omega, ?_⟩
      intro t ht
      by_cases htd : t < d
      · have e1 : bi - (d + 1) + t = bi - 1 - d + t := by omega
        have e2 : bj - (d + 1) + t = bj - 1 - d + t := by omega
        rw [e1, e2]
        exact g3 t htd
      · have htd2 : t = d := by omega
        have e1 : bi - (d + 1) + t = bi - 1 := by omega
        have e2 : bj - (d + 1) + t = bj - 1 := by omega
        rw [e1, e2]
        exact h4
    case isFalse h =>
      refine ⟨by omega, by omega, ?_⟩
      intro t ht
      omega

/-- Soundness of the second extension loop. -/
theorem extendFwd_sound (a b : List Char) (ahi bhi bi bj : ℕ) :
    ∀ fuel size, ahi - (bi + size) ≤ fuel → bi + size ≤ ahi → bj + size ≤ bhi →
      bi + size + extendFwd a b ahi bhi bi bj size ≤ ahi ∧
      bj + size + extendFwd a b ahi bhi bi bj size ≤ bhi ∧
      ∀ t, size ≤ t → t < size + extendFwd a b ahi bhi bi bj size →
        a.getD (bi + t) padChar = b.getD (bj + t) padChar := by
  intro fuel
  induction fuel with
  | zero =>
    intro size h1 h2 h3
    rw [extendFwd]
    split
    case isTrue h => exact absurd h.1 (by omega)
    case isFalse h =>
      refine ⟨by omega, by omega, ?_⟩
      intro t ht1 ht2
      omega
  | succ n ih =>
    intro size h1 h2 h3
    rw [extendFwd]
    split
    case isTrue h =>
      obtain ⟨g1, g2, g3⟩ := ih (size + 1) (by omega) (by omega) (by omega)
      set d := extendFwd a b ahi bhi bi bj (size + 1) with hd
      refine ⟨by omega, by omega, ?_⟩
      intro t ht1 ht2
      by_cases hts : t = size
      · subst hts
        exact h.2.2.2
      · exact g3 t (by omega) (by omega)
    case isFalse h =>
      refine ⟨by omega, by omega, ?_⟩
      intro t ht1 ht2
      omega

/-- The third extension loop never steps: its guard needs a junk element
and the junk set is empty. -/
theorem extendBackJunk_eq_zero (a b : List Char) (alo blo bi bj : ℕ) :
    extendBackJunk a b alo blo bi bj = 0 := by
  rw [extendBackJunk]
  rw [dif_neg]
  intro h
  simpa [isbjunk] using h.2.2.1

/-- The fourth extension loop never steps. -/
theorem extendFwdJunk_eq_zero (a b : List Char) (ahi bhi bi bj size : ℕ) :
    extendFwdJunk a b ahi bhi bi bj size = 0 := by
  rw [extendFwdJunk]
  rw [dif_neg]
  intro h
  simpa [isbjunk] using h.2.2.1

/-- The third extension stage is the identity. -/
theorem afterBackJunk_id (a b : List Char) (alo blo : ℕ) (bst : Best) :
    afterBackJunk a b alo blo bst = bst := by
  unfold afterBackJunk
  rw [extendBackJunk_eq_zero]
  cases bst
  simp

/-- The fourth extension stage is the identity. -/
theorem afterFwdJunk_id (a b : List Char) (ahi bhi : ℕ) (bst : Best) :
    afterFwdJunk a b ahi bhi bst = bst := by
  unfold afterFwdJunk
  rw [extendFwdJunk_eq_zero]
  cases bst
  simp

/-- The first extension stage keeps the best-block invariant. -/
theorem afterBack_inv {a b : List Char} {alo ahi blo bhi : ℕ} {bst : Best}
    (hb : BestInv a b alo ahi blo bhi bst) :
    BestInv a b alo ahi blo bhi (afterBack a b alo blo bst) := by
  obtain ⟨c1, c2, c3, c4, c5⟩ := hb
  obtain ⟨e1, e2, e3⟩ := extendBack_sound a b alo blo bst.i bst.j c1 c3
  set d := extendBack a b alo blo bst.i bst.j with hd
  unfold afterBack
  rw [← hd]
  refine ⟨?_, ?_, ?_, ?_, ?_⟩
  · show alo ≤ bst.i - d
    omega
  · show bst.i - d + (bst.size + d) ≤ ahi
    omega
  · show blo ≤ bst.j - d
    omega
  · show bst.j - d + (bst.size + d) ≤ bhi
    omega
  · show MatchAt a b (bst.i - d) (bst.j - d) (bst.size + d)
    intro t ht
    by_cases htd : t < d
    · exact e3 t htd
    · have f1 : bst.i - d + t = bst.i + (t - d) := by omega
      have f2 : bst.j - d + t = bst.j + (t - d) := by omega
      rw [f1, f2]
      exact c5 (t - d) (by omega)

/-- The second extension stage keeps the best-block invariant. -/
theorem afterFwd_inv {a b : List Char} {alo ahi blo bhi : ℕ} {bst : Best}
    (hb : BestInv a b alo ahi blo bhi bst) :
    BestInv a b alo ahi blo bhi (afterFwd a b ahi bhi bst) := by
  obtain ⟨c1, c2, c3, c4, c5⟩ := hb
  obtain ⟨g1, g2, g3⟩ :=
    extendFwd_sound a b ahi bhi bst.i bst.j (ahi - (bst.i + bst.size)) bst.size (le_refl _) c2 c4
  set d := extendFwd a b ahi bhi bst.i bst.j bst.size with hd
  unfold afterFwd
  rw [← hd]
  refine ⟨c1, ?_, c3, ?_, ?_⟩
  · show bst.i + (bst.size + d) ≤ ahi
    omega
  · show bst.j + (bst.size + d) ≤ bhi
    omega
  show MatchAt a b bst.i bst.j (bst.size + d)
  intro t ht
  by_cases hts : t < bst.size
  · exact c5 t hts
  · exact g3 t (by omega) (by omega)

/-- Soundness of `find_longest_match`: the returned block lies in the
requested range and its characters match pairwise. -/
theorem findLongestMatch_sound {a b : List Char} {alo ahi blo bhi : ℕ}
    (h1 : alo ≤ ahi) (h2 : blo ≤ bhi) :
    BestInv a b alo ahi blo bhi (findLongestMatch a b alo ahi blo bhi) := by
  unfold findLongestMatch
  rw [afterFwdJunk_id, afterBackJunk_id]
  exact afterFwd_inv (afterBack_inv (coreLoop_inv h1 h2))

end Difflib

namespace Difflib

/-- Total size of the matching blocks found by `get_matching_blocks`.  The
source drives a LIFO queue over subranges, then sorts the collected blocks
and merges adjacent ones; neither the traversal order nor the merge
changes the total matched size, so the recursion below computes the same
total.  The two range-validity conjuncts in the guard hold automatically
on every range the traversal visits (an empty or inverted range makes
`find_longest_match` return size `0`); they are carried in the guard only
to feed the termination argument. -/
def matchTotal (a b : List Char) (alo ahi blo bhi : ℕ) : ℕ :=
  if h : 0 < (findLongestMatch a b alo ahi blo bhi).size ∧ alo ≤ ahi ∧ blo ≤ bhi then
    matchTotal a b alo (findLongestMatch a b alo ahi blo bhi).i blo
        (findLongestMatch a b alo ahi blo bhi).j
      + (findLongestMatch a b alo ahi blo bhi).size
      + matchTotal a b
          ((findLongestMatch a b alo ahi blo bhi).i + (findLongestMatch a b alo ahi blo bhi).size)
          ahi
          ((findLongestMatch a b alo ahi blo bhi).j + (findLongestMatch a b alo ahi blo bhi).size)
          bhi
  else 0
termination_by (ahi - alo) + (bhi - blo)
decreasing_by
all_goals
  obtain ⟨c1, c2, c3, c4, _⟩ := findLongestMatch_sound (a := a) (b := b) h.2.1 h.2.2
  omega

/-- The contiguous subrange `[lo, hi)` of a list. -/
def slice (l : List Char) (lo hi : ℕ) : List Char :=
  (l.drop lo).take (hi - lo)

/-- Adjacent slices concatenate. -/
theorem slice_append (l : List Char) {lo mid hi : ℕ} (h1 : lo ≤ mid) (h2 : mid ≤ hi) :
    slice l lo mid ++ slice l mid hi = slice l lo hi := by
  unfold slice
  rw [show hi - lo = (mid - lo) + (hi - mid) by omega, List.take_add]
  congr 2
  rw [List.drop_drop]
  congr 1
  omega

/-- A slice as a map over an index range. -/
theorem slice_eq_map (l : List Char) {lo hi : ℕ} (h2 : hi ≤ l.length) :
    slice l lo hi = (List.range (hi - lo)).map (fun t => l.getD (lo + t) padChar) := by
  apply List.ext_getElem
  · simp [slice]
    omega
  · intro n h1a h1b
    simp only [slice] at h1a ⊢
    have hn : n < hi - lo := by
      simp at h1a
      omega
    have hlen : lo + n < l.length := by omega
    rw [List.getElem_take, List.getElem_drop]
    simp only [List.getElem_map, List.getElem_range]
    rw [List.getD_eq_getElem l padChar hlen]

/-- The full-range slice is the list itself. -/
theorem slice_full (l : List Char) : slice l 0 l.length = l := by
  simp [slice]

/-- The matched characters form a common sublist: there is one list of
characters that embeds into both slices and has the matched total as its
length.  (Each block contributes its characters; blocks of distinct
recursive calls live in disjoint index ranges.) -/
theorem matchTotal_sublist (a b : List Char) :
    ∀ N alo ahi blo bhi, (ahi - alo) + (bhi - blo) ≤ N → ahi ≤ a.length → bhi ≤ b.length →
      ∃ L, List.Sublist L (slice a alo ahi) ∧ List.Sublist L (slice b blo bhi) ∧
        L.length = matchTotal a b alo ahi blo bhi := by
  intro N
  induction N with
  | zero =>
    intro alo ahi blo bhi hN ha hb
    rw [matchTotal]
    rw [dif_neg]
    · exact ⟨[], List.nil_sublist _, List.nil_sublist _, rfl⟩
    · intro hcc
      obtain ⟨c1, c2, c3, c4, _⟩ := findLongestMatch_sound (a := a) (b := b) hcc.2.1 hcc.2.2
      omega
  | succ N ih =>
    intro alo ahi blo bhi hN ha hb
    rw [matchTotal]
    split
    case isFalse h =>
      exact ⟨[], List.nil_sublist _, List.nil_sublist _, rfl⟩
    case isTrue h =>
      obtain ⟨c1, c2, c3, c4, c5⟩ := findLongestMatch_sound (a := a) (b := b) h.2.1 h.2.2
      set m := findLongestMatch a b alo ahi blo bhi with hm
      obtain ⟨L1, p1, p2, p3⟩ := ih alo m.i blo m.j (by omega) (by omega) (by omega)
      obtain ⟨L2, q1, q2, q3⟩ := ih (m.i + m.size) ahi (m.j + m.size) bhi (by omega) ha hb
      refine ⟨L1 ++ ((List.range m.size).map (fun t => a.getD (m.i + t) padChar)) ++ L2, ?_, ?_, ?_⟩
      · have e1 : slice a m.i (m.i + m.size)
            = (List.range m.size).map (fun t => a.getD (m.i + t) padChar) := by
          rw [slice_eq_map a (by omega), Nat.add_sub_cancel_left]
        have hcat : slice a alo m.i ++ slice a m.i (m.i + m.size) ++ slice a (m.i + m.size) ahi
            = slice a alo ahi := by
          rw [slice_append a (by omega) (by omega), slice_append a (by omega) (by omega)]
        rw [← hcat]
        apply List.Sublist.append ?_ q1
        apply List.Sublist.append p1
        rw [e1]
      · have e2 : slice b m.j (m.j + m.size)
            = (List.range m.size).map (fun t => a.getD (m.i + t) padChar) := by
          rw [slice_eq_map b (by omega), Nat.add_sub_cancel_left]
          refine List.map_congr_left ?_
          intro t ht
          simp only [List.mem_range] at ht
          exact (c5 t ht).symm
        have hcat : slice b blo m.j ++ slice b m.j (m.j + m.size) ++ slice b (m.j + m.size) bhi
            = slice b blo bhi := by
          rw [slice_append b (by omega) (by omega), slice_append b (by omega) (by omega)]
        rw [← hcat]
        apply List.Sublist.append ?_ q2
        apply List.Sublist.append p2
        rw [e2]
      · simp only [List.length_append, List.length_map, List.length_range]
        omega

end Difflib

namespace Difflib

/-- `difflib._calculate_ratio(matches, length)`: `2.0 * matches / length`,
and `1.0` when `length` is zero. -/
def calcRatio (m length : ℕ) : ℚ :=
  if length = 0 then 1 else 2 * (m : ℚ) / (length : ℚ)

/-- `SequenceMatcher.ratio()` with `seq1 = a`, `seq2 = b`. -/
def ratio (a b : List Char) : ℚ :=
  calcRatio (matchTotal a b 0 a.length 0 b.length) (a.length + b.length)

/-- The avail-counting loop of `quick_ratio`: for each element of `a`,
look its remaining count up in `avail` (initially `fullbcount`, the counts
in `b`), decrement it, and count a match while it was positive. -/
def quickAux (b : List Char) : List Char → (Char → Option ℤ) → ℕ
  | [], _ => 0
  | c :: rest, avail =>
    let numb : ℤ := (avail c).getD (b.count c : ℤ)
    (if 0 < numb then 1 else 0) +
      quickAux b rest (fun x => if x = c then some (numb - 1) else avail x)

/-- The `matches` total of `quick_ratio`. -/
def quickMatches (a b : List Char) : ℕ := quickAux b a (fun _ => none)

/-- `SequenceMatcher.quick_ratio()`. -/
def quickRatio (a b : List Char) : ℚ :=
  calcRatio (quickMatches a b) (a.length + b.length)

/-- `SequenceMatcher.real_quick_ratio()`:
`_calculate_ratio(min(la, lb), la + lb)`. -/
def realQuickRatio (a b : List Char) : ℚ :=
  calcRatio (min a.length b.length) (a.length + b.length)

/-- The matched total embeds into the multiset intersection. -/
theorem matchTotal_le_card_inter (a b : List Char) :
    matchTotal a b 0 a.length 0 b.length ≤ Multiset.card ((↑a : Multiset Char) ∩ ↑b) := by
  obtain ⟨L, s1, s2, s3⟩ := matchTotal_sublist a b (a.length + b.length) 0 a.length 0 b.length
    (by omega) (le_refl _) (le_refl _)
  rw [slice_full] at s1 s2
  have m1 : (↑L : Multiset Char) ≤ ↑a := Multiset.coe_le.mpr s1.subperm
  have m2 : (↑L : Multiset Char) ≤ ↑b := Multiset.coe_le.mpr s2.subperm
  have m3 : (↑L : Multiset Char) ≤ (↑a : Multiset Char) ∩ ↑b := Multiset.le_inter m1 m2
  have := Multiset.card_le_card m3
  rw [Multiset.coe_card] at this
  omega

/-- The matched total is at most the length of either string. -/
theorem matchTotal_le_min (a b : List Char) :
    matchTotal a b 0 a.length 0 b.length ≤ min a.length b.length := by
  obtain ⟨L, s1, s2, s3⟩ := matchTotal_sublist a b (a.length + b.length) 0 a.length 0 b.length
    (by omega) (le_refl _) (le_refl _)
  rw [slice_full] at s1 s2
  have := s1.length_le
  have := s2.length_le
  omega

/-- The multiset intersection is a lower bound for `quick_ratio`'s count
(the avail map dominates the running multiset). -/
theorem card_inter_le_quickAux (b : List Char) :
    ∀ (l : List Char) (avail : Char → Option ℤ) (s : Multiset Char),
      (∀ c, s.count c ≤ ((avail c).getD (b.count c : ℤ)).toNat) →
      Multiset.card ((↑l : Multiset Char) ∩ s) ≤ quickAux b l avail := by
  intro l
  induction l with
  | nil =>
    intro avail s hs
    simp [quickAux]
  | cons c rest ih =>
    intro avail s hs
    rw [← Multiset.cons_coe]
    by_cases hc : c ∈ s
    · rw [Multiset.cons_inter_of_pos _ hc]
      have hcnt : 0 < s.count c := Multiset.count_pos.mpr hc
      have hnumb : 0 < (avail c).getD (b.count c : ℤ) := by
        have := hs c
        omega
      have ih2 := ih (fun x => if x = c then some ((avail c).getD (b.count c : ℤ) - 1) else avail x)
        (s.erase c) ?_
      · rw [show quickAux b (c :: rest) avail
            = (if 0 < (avail c).getD (b.count c : ℤ) then 1 else 0)
              + quickAux b rest
                  (fun x => if x = c then some ((avail c).getD (b.count c : ℤ) - 1) else avail x)
          from rfl]
        rw [if_pos hnumb, Multiset.card_cons]
        omega
      · intro x
        by_cases hx : x = c
        · subst hx
          rw [Multiset.count_erase_self]
          simp only [eq_self_iff_true, if_true, Option.getD_some]
          have := hs x
          omega
        · rw [Multiset.count_erase_of_ne hx]
          simp only [if_neg hx]
          exact hs x
    · rw [Multiset.cons_inter_of_neg _ hc]
      have ih2 := ih (fun x => if x = c then some ((avail c).getD (b.count c : ℤ) - 1) else avail x)
        s ?_
      · rw [show quickAux b (c :: rest) avail
            = (if 0 < (avail c).getD (b.count c : ℤ) then 1 else 0)
              + quickAux b rest
                  (fun x => if x = c then some ((avail c).getD (b.count c : ℤ) - 1) else avail x)
          from rfl]
        omega
      · intro x
        by_cases hx : x = c
        · subst hx
          simp only [eq_self_iff_true, if_true, Option.getD_some]
          have h0 : s.count x = 0 := Multiset.count_eq_zero.mpr hc
          omega
        · simp only [if_neg hx]
          exact hs x

/-- The matched total is at most `quick_ratio`'s count. -/
theorem matchTotal_le_quickMatches (a b : List Char) :
    matchTotal a b 0 a.length 0 b.length ≤ quickMatches a b := by
  refine le_trans (matchTotal_le_card_inter a b) ?_
  refine card_inter_le_quickAux b a (fun _ => none) ↑b ?_
  intro c
  simp [Multiset.coe_count]

/-- `ratio <= quick_ratio`. -/
theorem ratio_le_quickRatio (a b : List Char) : ratio a b ≤ quickRatio a b := by
  unfold ratio quickRatio calcRatio
  by_cases hT : a.length + b.length = 0
  · rw [if_pos hT, if_pos hT]
  · rw [if_neg hT, if_neg hT]
    have hTpos : (0 : ℚ) < (a.length + b.length : ℕ) := by
      have : 0 < a.length + b.length := by omega
      exact_mod_cast this
    rw [div_le_div_iff_of_pos_right hTpos]
    have := matchTotal_le_quickMatches a b
    have hcast : (matchTotal a b 0 a.length 0 b.length : ℚ) ≤ (quickMatches a b : ℚ) := by
      exact_mod_cast this
    linarith

/-- `ratio <= real_quick_ratio`. -/
theorem ratio_le_realQuickRatio (a b : List Char) : ratio a b ≤ realQuickRatio a b := by
  unfold ratio realQuickRatio calcRatio
  by_cases hT : a.length + b.length = 0
  · rw [if_pos hT, if_pos hT]
  · rw [if_neg hT, if_neg hT]
    have hTpos : (0 : ℚ) < (a.length + b.length : ℕ) := by
      have : 0 < a.length + b.length := by omega
      exact_mod_cast this
    rw [div_le_div_iff_of_pos_right hTpos]
    have := matchTotal_le_min a b
    have hcast : (matchTotal a b 0 a.length 0 b.length : ℚ) ≤ ((min a.length b.length : ℕ) : ℚ) := by
      exact_mod_cast this
    linarith

/-- `ratio` never exceeds `1`. -/
theorem ratio_le_one (a b : List Char) : ratio a b ≤ 1 := by
  unfold ratio calcRatio
  by_cases hT : a.length + b.length = 0
  · rw [if_pos hT]
  · rw [if_neg hT]
    have hTpos : (0 : ℚ) < (a.length + b.length : ℕ) := by
      have : 0 < a.length + b.length := by omega
      exact_mod_cast this
    rw [div_le_one hTpos]
    have h1 := matchTotal_le_min a b
    have h2 : 2 * matchTotal a b 0 a.length 0 b.length ≤ a.length + b.length := by omega
    exact_mod_cast h2

/-- A perfect ratio forces the two strings to be equal. -/
theorem ratio_eq_one (a b : List Char) (h : ratio a b = 1) : a = b := by
  unfold ratio calcRatio at h
  by_cases hT : a.length + b.length = 0
  · have ha : a = [] := List.length_eq_zero.mp (by omega)
    have hb : b = [] := List.length_eq_zero.mp (by omega)
    rw [ha, hb]
  · rw [if_neg hT] at h
    have hTpos : (0 : ℚ) < (a.length + b.length : ℕ) := by
      have : 0 < a.length + b.length := by omega
      exact_mod_cast this
    have hTne : ((a.length + b.length : ℕ) : ℚ) ≠ 0 := ne_of_gt hTpos
    rw [div_eq_one_iff_eq hTne] at h
    have h3 : 2 * matchTotal a b 0 a.length 0 b.length = a.length + b.length := by
      exact_mod_cast h
    have h4 := matchTotal_le_min a b
    obtain ⟨L, s1, s2, s3⟩ := matchTotal_sublist a b (a.length + b.length) 0 a.length 0 b.length
      (by omega) (le_refl _) (le_refl _)
    rw [slice_full] at s1 s2
    have e1 : L = a := s1.eq_of_length (by omega)
    have e2 : L = b := s2.eq_of_length (by omega)
    rw [← e1, e2]

end Difflib

namespace Difflib

/-- A `b2j` entry is only inhabited for non-popular elements. -/
theorem b2j_not_popular {b : List Char} {c : Char} {j : ℕ} (h : j ∈ b2j b c) :
    isPopular b c = false := by
  unfold b2j at h
  by_cases hp : isPopular b c
  · rw [if_pos hp] at h
    simp at h
  · simpa using hp

/-- Every in-range index of a non-popular element occurs in its own
`b2j` entry. -/
theorem mem_b2j_self {a : List Char} {i : ℕ} (h1 : i < a.length)
    (h2 : isPopular a (a.getD i padChar) = false) :
    i ∈ b2j a (a.getD i padChar) := by
  unfold b2j
  rw [if_neg (by rw [h2]; simp)]
  exact mem_positions.mpr ⟨h1, rfl⟩

/-- Whether the diagonal cell `(j, j)` is visited by the core loop on
`(a, a)`: index `j` occurs in `b2j[a[j]]`. -/
def diagOkB (a : List Char) (j : ℕ) : Bool :=
  (b2j a (a.getD j padChar)).contains j

/-- Length of the maximal all-visited diagonal run ending at index `j`. -/
def diagRun (a : List Char) : ℕ → ℕ
  | 0 => if diagOkB a 0 then 1 else 0
  | j + 1 => if diagOkB a (j + 1) then diagRun a j + 1 else 0

/-- Any all-visited diagonal run ending at `x` bounds `diagRun` below. -/
theorem diagRun_ge (a : List Char) :
    ∀ x k, k ≤ x + 1 → (∀ t, t < k → diagOkB a (x - t) = true) → k ≤ diagRun a x := by
  intro x
  induction x with
  | zero =>
    intro k hk hok
    match k with
    | 0 => omega
    | 1 =>
      have := hok 0 (by omega)
      simp only [Nat.sub_zero] at this
      unfold diagRun
      rw [if_pos this]
  | succ x ih =>
    intro k hk hok
    match k with
    | 0 => omega
    | Nat.succ k0 =>
      have h0 := hok 0 (by omega)
      simp only [Nat.sub_zero] at h0
      have hrest : k0 ≤ diagRun a x := by
        apply ih k0 (by omega)
        intro t ht
        have := hok (t + 1) (by omega)
        have e : x + 1 - (t + 1) = x - t := by omega
        rwa [e] at this
      unfold diagRun
      rw [if_pos h0]
      omega

/-- `diagRun` at a visited successor index. -/
theorem diagRun_succ (a : List Char) (j : ℕ) (h : diagOkB a (j + 1) = true) :
    diagRun a (j + 1) = diagRun a j + 1 := by
  simp only [diagRun, h, if_true]

/-- On the full range of `(a, a)`, the visited `j`s of a row are exactly
the `b2j` entry of the row's character. -/
theorem rowJs_self (a : List Char) (i : ℕ) :
    rowJs a a 0 a.length i = b2j a (a.getD i padChar) := by
  unfold rowJs
  apply List.filter_eq_self.mpr
  intro j hj
  have := of_mem_b2j hj
  simp only [Bool.and_eq_true, decide_eq_true_eq]
  omega

/-- The `b2j` position lists are strictly increasing. -/
theorem b2j_pairwise (b : List Char) (c : Char) : (b2j b c).Pairwise (· < ·) := by
  unfold b2j
  split
  · exact List.Pairwise.nil
  · unfold positions
    exact (List.pairwise_lt_range _).filter _

/-- A strictly increasing list splits at a pivot into its small and large
parts, in order. -/
theorem sorted_split (i : ℕ) :
    ∀ l : List ℕ, l.Pairwise (· < ·) →
      l = l.filter (fun j => decide (j < i)) ++ l.filter (fun j => ! decide (j < i)) := by
  intro l
  induction l with
  | nil => intro _; rfl
  | cons h t ih =>
    intro hp
    have hlt := (List.pairwise_cons.mp hp).1
    have hpt := (List.pairwise_cons.mp hp).2
    by_cases hh : h < i
    · rw [List.filter_cons_of_pos (by simpa using hh),
          List.filter_cons_of_neg (by simpa using hh)]
      rw [List.cons_append]
      exact congrArg _ (ih hpt)
    · have hta : ∀ x ∈ t, ¬ x < i := by
        intro x hx
        have := hlt x hx
        omega
      rw [List.filter_cons_of_neg (by simpa using hh),
          List.filter_cons_of_pos (by simpa using hh)]
      have e1 : t.filter (fun j => decide (j < i)) = [] := by
        apply List.filter_eq_nil_iff.mpr
        intro x hx
        simpa using hta x hx
      have e2 : t.filter (fun j => ! decide (j < i)) = t := by
        apply List.filter_eq_self.mpr
        intro x hx
        simpa using hta x hx
      rw [e1, e2]
      rfl

/-- In a strictly increasing list whose members all dominate `i`, if `i`
occurs then it is the head and the tail is strictly above `i`. -/
theorem head_of_min (i : ℕ) (C : List ℕ) (hp : C.Pairwise (· < ·))
    (hmem : i ∈ C) (hge : ∀ x ∈ C, i ≤ x) :
    ∃ C2, C = i :: C2 ∧ ∀ x ∈ C2, i < x := by
  match C with
  | [] => simp at hmem
  | h :: t =>
    have hlt := List.pairwise_cons.mp hp
    have hhi : i ≤ h := hge h (List.mem_cons_self _ _)
    have hhead : h = i := by
      rcases List.mem_cons.mp hmem with he | ht
      · omega
      · have := hlt.1 i ht
        omega
    subst hhead
    exact ⟨t, rfl, hlt.1⟩

/-- `stepJ` folds to the identity when no candidate beats the best size. -/
theorem foldl_stepJ_id (i : ℕ) (f : ℕ → ℕ) :
    ∀ (js : List ℕ) (bst : Best),
      (∀ j ∈ js, (if j = 0 then 0 else f (j - 1)) + 1 ≤ bst.size) →
      js.foldl (stepJ i f) bst = bst := by
  intro js
  induction js with
  | nil => intro bst _; rfl
  | cons j rest ih =>
    intro bst hb
    rw [List.foldl_cons]
    have hstep : stepJ i f bst j = bst := by
      unfold stepJ
      rw [if_neg]
      have := hb j (List.mem_cons_self _ _)
      omega
    rw [hstep]
    exact ih bst (fun x hx => hb x (List.mem_cons_of_mem _ hx))

end Difflib

namespace Difflib

/-- An unvisited diagonal cell resets the diagonal run. -/
theorem diagRun_zero {a : List Char} {i : ℕ} (h : diagOkB a i = false) :
    diagRun a i = 0 := by
  match i with
  | 0 => simp [diagRun, h]
  | Nat.succ j => simp [diagRun, h]

/-- Column bound: on `(a, a)`, the run ending at row `i`, column `j`
consists of visited diagonal cells on the column side, so its length is at
most `diagRun a j`. -/
theorem colBound {a : List Char} {i : ℕ} {f : ℕ → ℕ}
    (hf : J2lenInv a a 0 0 a.length i f) {j : ℕ}
    (hj : j ∈ b2j a (a.getD i padChar)) :
    (if j = 0 then 0 else f (j - 1)) + 1 ≤ diagRun a j := by
  have hchar : a.getD j padChar = a.getD i padChar := (of_mem_b2j hj).2
  have hok0 : diagOkB a j = true := by
    unfold diagOkB
    rw [hchar]
    simpa using hj
  by_cases hj0 : j = 0
  · subst hj0
    rw [if_pos rfl]
    apply diagRun_ge a 0 1 (by omega)
    intro t ht
    have ht0 : t = 0 := by omega
    subst ht0
    simpa using hok0
  · rw [if_neg hj0]
    by_cases hfz : f (j - 1) = 0
    · rw [hfz]
      apply diagRun_ge a j 1 (by omega)
      intro t ht
      have ht0 : t = 0 := by omega
      subst ht0
      simpa using hok0
    · obtain ⟨hb1, hb2, hb3⟩ := hf (j - 1) (by omega)
      apply diagRun_ge a j (f (j - 1) + 1) (by omega)
      intro t ht
      match t with
      | 0 => simpa using hok0
      | Nat.succ s =>
        have hs : s < f (j - 1) := by omega
        have hm := hb3 s hs
        rw [rowJs_self] at hm
        have hchar2 : a.getD (j - 1 - s) padChar = a.getD (i - 1 - s) padChar :=
          (of_mem_b2j hm).2
        have hok : diagOkB a (j - 1 - s) = true := by
          unfold diagOkB
          rw [hchar2]
          simpa using hm
        have e : j - (s + 1) = j - 1 - s := by omega
        rwa [e]

/-- Row bound: the same run consists of non-popular cells on the row side
(characters agree), so its length is also at most `diagRun a i`. -/
theorem rowBound {a : List Char} {i : ℕ} {f : ℕ → ℕ}
    (hf : J2lenInv a a 0 0 a.length i f) (hi : i < a.length) {j : ℕ}
    (hj : j ∈ b2j a (a.getD i padChar)) :
    (if j = 0 then 0 else f (j - 1)) + 1 ≤ diagRun a i := by
  have hpop : isPopular a (a.getD i padChar) = false := b2j_not_popular hj
  have hok0 : diagOkB a i = true := by
    unfold diagOkB
    simpa using mem_b2j_self hi hpop
  have one_case : 1 ≤ diagRun a i := by
    apply diagRun_ge a i 1 (by omega)
    intro t ht
    have ht0 : t = 0 := by omega
    subst ht0
    simpa using hok0
  by_cases hj0 : j = 0
  · rw [if_pos hj0]
    exact one_case
  · rw [if_neg hj0]
    by_cases hfz : f (j - 1) = 0
    · rw [hfz]
      exact one_case
    · obtain ⟨hb1, hb2, hb3⟩ := hf (j - 1) (by omega)
      apply diagRun_ge a i (f (j - 1) + 1) (by omega)
      intro t ht
      match t with
      | 0 => simpa using hok0
      | Nat.succ s =>
        have hs : s < f (j - 1) := by omega
        have hm := hb3 s hs
        rw [rowJs_self] at hm
        have hpop2 : isPopular a (a.getD (i - 1 - s) padChar) = false := b2j_not_popular hm
        have hir : i - 1 - s < a.length := by omega
        have hok : diagOkB a (i - 1 - s) = true := by
          unfold diagOkB
          simpa using mem_b2j_self hir hpop2
        have e : i - (s + 1) = i - 1 - s := by omega
        rwa [e]

/-- Invariant of the core loop on `(a, a)` over the full range: the best
block stays on the diagonal, its size dominates every completed diagonal
run, and the `j2len` diagonal entry of the previous row is exact. -/
structure DiagInv (a : List Char) (i : ℕ) (st : Best × (ℕ → ℕ)) : Prop where
  diag : st.1.i = st.1.j
  cover : ∀ r, r < i → diagRun a r ≤ st.1.size
  prevDiag : ∀ r, r + 1 = i → st.2 r = diagRun a r

end Difflib

namespace Difflib

/-- Processing one row of the core loop on `(a, a)` keeps the diagonal
invariant: candidates left of the diagonal are dominated by earlier
diagonal runs, the diagonal candidate itself is the current diagonal run,
and candidates right of the diagonal are dominated by it. -/
theorem diag_row {a : List Char} {i : ℕ} {st : Best × (ℕ → ℕ)}
    (hd : DiagInv a i st) (hf : J2lenInv a a 0 0 a.length i st.2) (hi : i < a.length) :
    DiagInv a (i + 1) (processRow a a 0 a.length st i) := by
  obtain ⟨d1, d2, d3⟩ := hd
  have hjs : rowJs a a 0 a.length i = b2j a (a.getD i padChar) := rowJs_self a i
  by_cases hpop : isPopular a (a.getD i padChar) = true
  · -- popular row: no cell of this row is visited
    have hempty : b2j a (a.getD i padChar) = [] := by
      unfold b2j
      rw [if_pos hpop]
    have hok : diagOkB a i = false := by
      unfold diagOkB
      rw [hempty]
      rfl
    have hrun : diagRun a i = 0 := diagRun_zero hok
    refine ⟨?_, ?_, ?_⟩
    · show ((rowJs a a 0 a.length i).foldl (stepJ i st.2) st.1).i
        = ((rowJs a a 0 a.length i).foldl (stepJ i st.2) st.1).j
      rw [hjs, hempty]
      exact d1
    · intro r hr
      show diagRun a r ≤ ((rowJs a a 0 a.length i).foldl (stepJ i st.2) st.1).size
      rw [hjs, hempty]
      by_cases hri : r < i
      · exact d2 r hri
      · have : r = i := by omega
        rw [this, hrun]
        omega
    · intro r hr
      have hri : r = i := by omega
      subst hri
      show (if (rowJs a a 0 a.length r).contains r then
          (if r = 0 then 0 else st.2 (r - 1)) + 1 else 0) = diagRun a r
      rw [hjs, hempty, hrun]
      rfl
  · have hpop2 : isPopular a (a.getD i padChar) = false := by
      simpa using hpop
    have hmem : i ∈ b2j a (a.getD i padChar) := mem_b2j_self hi hpop2
    have hok : diagOkB a i = true := by
      unfold diagOkB
      simpa using hmem
    have hsorted : (b2j a (a.getD i padChar)).Pairwise (· < ·) := b2j_pairwise a _
    have hsplit := sorted_split i (b2j a (a.getD i padChar)) hsorted
    have hCp : ((b2j a (a.getD i padChar)).filter (fun j => ! decide (j < i))).Pairwise (· < ·) :=
      hsorted.filter _
    have hCmem : i ∈ (b2j a (a.getD i padChar)).filter (fun j => ! decide (j < i)) := by
      apply List.mem_filter.mpr
      exact ⟨hmem, by simp⟩
    have hCge : ∀ x ∈ (b2j a (a.getD i padChar)).filter (fun j => ! decide (j < i)), i ≤ x := by
      intro x hx
      have := (List.mem_filter.mp hx).2
      simp only [Bool.not_eq_true', decide_eq_false_iff_not] at this
      omega
    obtain ⟨C2, hC2, hC2gt⟩ := head_of_min i _ hCp hCmem hCge
    -- the value of the diagonal candidate
    have hki : (if i = 0 then 0 else st.2 (i - 1)) + 1 = diagRun a i := by
      by_cases hi0 : i = 0
      · subst hi0
        rw [if_pos rfl]
        simp [diagRun, hok]
      · rw [if_neg hi0]
        rw [d3 (i - 1) (by omega)]
        have hsucc : diagRun a ((i - 1) + 1) = diagRun a (i - 1) + 1 :=
          diagRun_succ a (i - 1) (by rw [show i - 1 + 1 = i by omega]; exact hok)
        rw [show i - 1 + 1 = i by omega] at hsucc
        omega
    -- folding the sub-diagonal part is the identity
    have hAid : ((b2j a (a.getD i padChar)).filter (fun j => decide (j < i))).foldl
        (stepJ i st.2) st.1 = st.1 := by
      apply foldl_stepJ_id
      intro j hjA
      obtain ⟨hjmem, hjlt⟩ := List.mem_filter.mp hjA
      have hjlt2 : j < i := by simpa using hjlt
      have hcb := colBound hf hjmem
      have hcov := d2 j hjlt2
      omega
    -- the diagonal step
    have hst1 : (stepJ i st.2 st.1 i).i = (stepJ i st.2 st.1 i).j
        ∧ diagRun a i ≤ (stepJ i st.2 st.1 i).size
        ∧ st.1.size ≤ (stepJ i st.2 st.1 i).size := by
      have hs : stepJ i st.2 st.1 i =
          if st.1.size < (if i = 0 then 0 else st.2 (i - 1)) + 1 then
            ⟨i + 1 - ((if i = 0 then 0 else st.2 (i - 1)) + 1),
             i + 1 - ((if i = 0 then 0 else st.2 (i - 1)) + 1),
             (if i = 0 then 0 else st.2 (i - 1)) + 1⟩
          else st.1 := rfl
      rw [hs]
      by_cases hlt : st.1.size < (if i = 0 then 0 else st.2 (i - 1)) + 1
      · rw [if_pos hlt]
        refine ⟨rfl, ?_, ?_⟩
        · show diagRun a i ≤ (if i = 0 then 0 else st.2 (i - 1)) + 1
          omega
        · show st.1.size ≤ (if i = 0 then 0 else st.2 (i - 1)) + 1
          omega
      · rw [if_neg hlt]
        exact ⟨d1, by omega, le_refl _⟩
    -- folding the super-diagonal part is the identity
    have hC2id : C2.foldl (stepJ i st.2) (stepJ i st.2 st.1 i) = stepJ i st.2 st.1 i := by
      apply foldl_stepJ_id
      intro j hj2
      have hjmem : j ∈ b2j a (a.getD i padChar) := by
        rw [hsplit]
        apply List.mem_append_right
        rw [hC2]
        exact List.mem_cons_of_mem _ hj2
      have hrb := rowBound hf hi hjmem
      omega
    have hfold : (rowJs a a 0 a.length i).foldl (stepJ i st.2) st.1 = stepJ i st.2 st.1 i := by
      rw [hjs]
      conv =>
        lhs
        rw [hsplit]
      rw [List.foldl_append, hAid, hC2, List.foldl_cons, hC2id]
    refine ⟨?_, ?_, ?_⟩
    · show ((rowJs a a 0 a.length i).foldl (stepJ i st.2) st.1).i
        = ((rowJs a a 0 a.length i).foldl (stepJ i st.2) st.1).j
      rw [hfold]
      exact hst1.1
    · intro r hr
      show diagRun a r ≤ ((rowJs a a 0 a.length i).foldl (stepJ i st.2) st.1).size
      rw [hfold]
      by_cases hri : r < i
      · have := d2 r hri
        omega
      · have : r = i := by omega
        rw [this]
        exact hst1.2.1
    · intro r hr
      have hri : r = i := by omega
      subst hri
      show (if (rowJs a a 0 a.length r).contains r then
          (if r = 0 then 0 else st.2 (r - 1)) + 1 else 0) = diagRun a r
      have hcont : (rowJs a a 0 a.length r).contains r = true := by
        rw [hjs]
        simpa using hmem
      rw [hcont]
      simpa using hki

end Difflib

namespace Difflib

/-- The outer row fold keeps the diagonal invariant. -/
theorem diag_fold {a : List Char} :
    ∀ (count i : ℕ) (st : Best × (ℕ → ℕ)), i + count ≤ a.length →
      DiagInv a i st → J2lenInv a a 0 0 a.length i st.2 →
      DiagInv a (i + count) ((List.range' i count).foldl (processRow a a 0 a.length) st) := by
  intro count
  induction count with
  | zero =>
    intro i st _ hd _
    simpa using hd
  | succ n ih =>
    intro i st hcount hd hf
    rw [List.range'_succ, List.foldl_cons]
    have step := diag_row hd hf (by omega)
    have stepf : J2lenInv a a 0 0 a.length (i + 1) (processRow a a 0 a.length st i).2 :=
      j2lenInv_step hf (Nat.zero_le i) (fun j => rfl)
    have := ih (i + 1) (processRow a a 0 a.length st i) (by omega) step stepf
    rw [show i + (n + 1) = (i + 1) + n by omega]
    exact this

/-- On `(a, a)` over the full range, the core loop's best block lies on
the diagonal. -/
theorem coreLoop_diag (a : List Char) :
    (coreLoop a a 0 a.length 0 a.length).i = (coreLoop a a 0 a.length 0 a.length).j := by
  unfold coreLoop
  rw [Nat.sub_zero]
  have hinit : DiagInv a 0 ((⟨0, 0, 0⟩ : Best), (fun _ => 0 : ℕ → ℕ)) := by
    refine ⟨rfl, ?_, ?_⟩
    · intro r hr
      omega
    · intro r hr
      omega
  have hinitf : J2lenInv a a 0 0 a.length 0 (fun _ => 0 : ℕ → ℕ) := by
    intro j hj
    simp at hj
  have := diag_fold a.length 0 (⟨0, 0, 0⟩, fun _ => 0) (by omega) hinit hinitf
  exact this.diag

/-- The first extension loop walks a diagonal block back to the start. -/
theorem extendBack_diag (a : List Char) : ∀ t, extendBack a a 0 0 t t = t := by
  intro t
  induction t with
  | zero =>
    rw [extendBack, dif_neg]
    intro hc
    exact absurd hc.1 (by omega)
  | succ n ih =>
    rw [extendBack, dif_pos ⟨by omega, by omega, rfl, rfl⟩]
    rw [show n + 1 - 1 = n by omega, ih]

/-- The second extension loop walks a diagonal block forward to the end. -/
theorem extendFwd_diag (a : List Char) (n : ℕ) :
    ∀ fuel sz, n - sz ≤ fuel → extendFwd a a n n 0 0 sz = n - sz := by
  intro fuel
  induction fuel with
  | zero =>
    intro sz h
    rw [extendFwd, dif_neg]
    · omega
    · intro hc
      exact absurd hc.1 (by omega)
  | succ m ih =>
    intro sz h
    by_cases hsz : sz < n
    · rw [extendFwd, dif_pos ⟨by omega, by omega, rfl, rfl⟩, ih (sz + 1) (by omega)]
      omega
    · rw [extendFwd, dif_neg]
      · omega
      · intro hc
        exact absurd hc.1 (by omega)

/-- `find_longest_match` on two copies of the same string over the full
range returns the whole string as one block. -/
theorem findLongestMatch_self (a : List Char) :
    findLongestMatch a a 0 a.length 0 a.length = ⟨0, 0, a.length⟩ := by
  unfold findLongestMatch
  rw [afterFwdJunk_id, afterBackJunk_id]
  have hdiag := coreLoop_diag a
  obtain ⟨c1, c2, c3, c4, c5⟩ := coreLoop_inv (a := a) (b := a)
    (Nat.zero_le a.length) (Nat.zero_le a.length)
  set bst := coreLoop a a 0 a.length 0 a.length with hbst
  have hab : afterBack a a 0 0 bst = ⟨0, 0, bst.size + bst.i⟩ := by
    unfold afterBack
    rw [← hdiag, extendBack_diag a bst.i]
    show Best.mk (bst.i - bst.i) (bst.i - bst.i) (bst.size + bst.i) = _
    rw [Nat.sub_self]
  rw [hab]
  have haf : afterFwd a a a.length a.length ⟨0, 0, bst.size + bst.i⟩ = ⟨0, 0, a.length⟩ := by
    unfold afterFwd
    show Best.mk 0 0 (bst.size + bst.i + extendFwd a a a.length a.length 0 0 (bst.size + bst.i)) = _
    rw [extendFwd_diag a a.length a.length (bst.size + bst.i) (by omega)]
    have hle : bst.i + bst.size ≤ a.length := c2
    congr 1
    omega
  rw [haf]

/-- `find_longest_match` finds nothing on a degenerate (empty) range. -/
theorem flm_degenerate (a b : List Char) (lo mo : ℕ) :
    findLongestMatch a b lo lo mo mo = ⟨lo, mo, 0⟩ := by
  have hcore : coreLoop a b lo lo mo mo = ⟨lo, mo, 0⟩ := by
    unfold coreLoop
    rw [Nat.sub_self]
    rfl
  unfold findLongestMatch
  rw [afterFwdJunk_id, afterBackJunk_id, hcore]
  have hb : extendBack a b lo mo lo mo = 0 := by
    rw [extendBack, dif_neg]
    intro hc
    exact absurd hc.1 (by omega)
  have hab : afterBack a b lo mo ⟨lo, mo, 0⟩ = ⟨lo, mo, 0⟩ := by
    unfold afterBack
    show Best.mk (lo - extendBack a b lo mo lo mo) (mo - extendBack a b lo mo lo mo)
      (0 + extendBack a b lo mo lo mo) = _
    rw [hb]
    simp
  rw [hab]
  have hfwd : extendFwd a b lo mo lo mo 0 = 0 := by
    rw [extendFwd, dif_neg]
    intro hc
    exact absurd hc.1 (by omega)
  unfold afterFwd
  show Best.mk lo mo (0 + extendFwd a b lo mo lo mo 0) = _
  rw [hfwd]

/-- The matched total of a degenerate range is zero. -/
theorem matchTotal_degenerate (a b : List Char) (lo mo : ℕ) :
    matchTotal a b lo lo mo mo = 0 := by
  rw [matchTotal, dif_neg]
  intro hc
  have := hc.1
  rw [flm_degenerate] at this
  simp at this

/-- The matched total of a string against itself is its full length. -/
theorem matchTotal_self (a : List Char) :
    matchTotal a a 0 a.length 0 a.length = a.length := by
  by_cases hn : a.length = 0
  · rw [matchTotal, dif_neg]
    · omega
    · intro hc
      have := hc.1
      rw [findLongestMatch_self] at this
      simp at this
      omega
  · rw [matchTotal, dif_pos]
    · rw [findLongestMatch_self]
      show matchTotal a a 0 0 0 0 + a.length
          + matchTotal a a (0 + a.length) a.length (0 + a.length) a.length = a.length
      rw [matchTotal_degenerate, Nat.zero_add, matchTotal_degenerate]
      omega
    · rw [findLongestMatch_self]
      refine ⟨by simpa using Nat.pos_of_ne_zero hn, by omega, by omega⟩

/-- `ratio` of a string with itself is `1`. -/
theorem ratio_self (a : List Char) : ratio a a = 1 := by
  unfold ratio calcRatio
  rw [matchTotal_self]
  by_cases hn : a.length + a.length = 0
  · rw [if_pos hn]
  · rw [if_neg hn]
    have hne : ((a.length + a.length : ℕ) : ℚ) ≠ 0 := by
      have : a.length + a.length ≠ 0 := hn
      exact_mod_cast this
    rw [div_eq_one_iff_eq hne]
    push_cast
    ring

end Difflib

namespace Difflib

/-- Python tuple order on the `(score, x)` pairs that `get_close_matches`
collects: lexicographic, with strings compared by code point. -/
def pairLt (p q : ℚ × String) : Prop :=
  p.1 < q.1 ∨ (p.1 = q.1 ∧ p.2 < q.2)

instance pairLt.decidable (p q : ℚ × String) : Decidable (pairLt p q) := by
  unfold pairLt
  infer_instance

/-- One comparison step of `heapq.nlargest(1, result)`: keep the larger
pair, the earlier one on full ties (equal pairs are indistinguishable in
the returned word). -/
def pickLarger (acc : Option (ℚ × String)) (p : ℚ × String) : Option (ℚ × String) :=
  match acc with
  | none => some p
  | some q => if pairLt q p then some p else some q

/-- `heapq.nlargest(1, l)` as an option. -/
def nlargest1 (l : List (ℚ × String)) : Option (ℚ × String) :=
  l.foldl pickLarger none

/-- Reduction of `pickLarger` on an empty accumulator. -/
theorem pickLarger_none (p : ℚ × String) : pickLarger none p = some p := rfl

/-- Reduction of `pickLarger` on a non-empty accumulator. -/
theorem pickLarger_some (q p : ℚ × String) :
    pickLarger (some q) p = if pairLt q p then some p else some q := rfl

/-- Whatever `nlargest1` returns came from the accumulator or the list. -/
theorem nlargest1_aux_mem :
    ∀ (l : List (ℚ × String)) (acc : Option (ℚ × String)) (r : ℚ × String),
      l.foldl pickLarger acc = some r → acc = some r ∨ r ∈ l := by
  intro l
  induction l with
  | nil =>
    intro acc r h
    exact Or.inl h
  | cons p rest ih =>
    intro acc r h
    rw [List.foldl_cons] at h
    rcases ih (pickLarger acc p) r h with hacc | hmem
    · match acc with
      | none =>
        rw [pickLarger_none] at hacc
        right
        simp only [Option.some.injEq] at hacc
        rw [← hacc]
        exact List.mem_cons_self _ _
      | some q =>
        rw [pickLarger_some] at hacc
        by_cases hq : pairLt q p
        · rw [if_pos hq] at hacc
          right
          simp only [Option.some.injEq] at hacc
          rw [← hacc]
          exact List.mem_cons_self _ _
        · rw [if_neg hq] at hacc
          exact Or.inl hacc
    · exact Or.inr (List.mem_cons_of_mem _ hmem)

/-- `pairLt` is trichotomous-enough: a failure of both strict comparisons
between maximal candidates propagates. -/
theorem pairLt_trans {x y z : ℚ × String} (h1 : pairLt x y) (h2 : pairLt y z) : pairLt x z := by
  rcases h1 with a1 | a2
  · rcases h2 with b1 | b2
    · exact Or.inl (lt_trans a1 b1)
    · exact Or.inl (by rw [← b2.1]; exact a1)
  · rcases h2 with b1 | b2
    · exact Or.inl (by rw [a2.1]; exact b1)
    · exact Or.inr ⟨by rw [a2.1, b2.1], lt_trans a2.2 b2.2⟩

/-- `pairLt` is total up to equality of pairs. -/
theorem pairLt_total (x y : ℚ × String) : pairLt x y ∨ pairLt y x ∨ x = y := by
  rcases lt_trichotomy x.1 y.1 with t1 | t2 | t3
  · exact Or.inl (Or.inl t1)
  · rcases lt_trichotomy x.2 y.2 with s1 | s2 | s3
    · exact Or.inl (Or.inr ⟨t2, s1⟩)
    · right
      right
      exact Prod.ext t2 s2
    · exact Or.inr (Or.inl (Or.inr ⟨t2.symm, s3⟩))
  · exact Or.inr (Or.inl (Or.inl t3))

/-- The result of `nlargest1` dominates the accumulator and the list. -/
theorem nlargest1_aux_max :
    ∀ (l : List (ℚ × String)) (acc : Option (ℚ × String)) (r : ℚ × String),
      l.foldl pickLarger acc = some r →
      (∀ q, acc = some q → ¬ pairLt r q) ∧ (∀ q ∈ l, ¬ pairLt r q) := by
  intro l
  induction l with
  | nil =>
    intro acc r h
    refine ⟨?_, ?_⟩
    · intro q hq
      simp only [List.foldl_nil] at h
      rw [h] at hq
      simp only [Option.some.injEq] at hq
      rw [hq]
      intro hlt
      rcases hlt with h1 | h2
      · exact absurd h1 (lt_irrefl _)
      · exact absurd h2.2 (lt_irrefl _)
    · intro q hq
      simp at hq
  | cons p rest ih =>
    intro acc r h
    rw [List.foldl_cons] at h
    obtain ⟨hacc2, hrest⟩ := ih (pickLarger acc p) r h
    constructor
    · intro q hq
      subst hq
      by_cases hqp : pairLt q p
      · have hnp := hacc2 p (by rw [pickLarger_some, if_pos hqp])
        intro hrq
        exact hnp (pairLt_trans hrq hqp)
      · exact hacc2 q (by rw [pickLarger_some, if_neg hqp])
    · intro q hq
      rcases List.mem_cons.mp hq with he | hm
      · subst he
        match acc with
        | none => exact hacc2 q (by rw [pickLarger_none])
        | some q0 =>
          by_cases hq0 : pairLt q0 q
          · exact hacc2 q (by rw [pickLarger_some, if_pos hq0])
          · have hr0 := hacc2 q0 (by rw [pickLarger_some, if_neg hq0])
            intro hrq
            rcases pairLt_total q0 q with t1 | t2 | t3
            · exact hq0 t1
            · exact hr0 (pairLt_trans hrq t2)
            · rw [t3] at hr0
              exact hr0 hrq
      · exact hrest q hm

/-- `nlargest1` returns `none` only when it saw nothing. -/
theorem nlargest1_aux_none :
    ∀ (l : List (ℚ × String)) (acc : Option (ℚ × String)),
      l.foldl pickLarger acc = none → acc = none ∧ l = [] := by
  intro l
  induction l with
  | nil =>
    intro acc h
    exact ⟨h, rfl⟩
  | cons p rest ih =>
    intro acc h
    rw [List.foldl_cons] at h
    have hn := (ih _ h).1
    match acc with
    | none => rw [pickLarger_none] at hn; simp at hn
    | some q =>
      rw [pickLarger_some] at hn
      by_cases hq : pairLt q p
      · rw [if_pos hq] at hn
        simp at hn
      · rw [if_neg hq] at hn
        simp at hn

end Difflib

namespace Difflib

/-- The cutoff `0.6` that `find_closest_name` passes to
`get_close_matches` (exact rational; the float differs only by an amount
observable on astronomically long strings). -/
def cutoffQ : ℚ := 3 / 5

/-- The three-stage acceptance test of `get_close_matches`:
`real_quick_ratio() >= cutoff and quick_ratio() >= cutoff and
ratio() >= cutoff`, with `seq1 = x` and `seq2 = word`. -/
def acceptable (word x : String) (cutoff : ℚ) : Bool :=
  decide (cutoff ≤ realQuickRatio x.data word.data) &&
  decide (cutoff ≤ quickRatio x.data word.data) &&
  decide (cutoff ≤ ratio x.data word.data)

/-- The `(score, x)` pairs collected by `get_close_matches`. -/
def candidatePairs (word : String) (possibilities : List String) (cutoff : ℚ) :
    List (ℚ × String) :=
  (possibilities.filter (fun x => acceptable word x cutoff)).map
    (fun x => (ratio x.data word.data, x))

/-- `difflib.get_close_matches(word, possibilities, n=1, cutoff)`. -/
def getCloseMatches1 (word : String) (possibilities : List String) (cutoff : ℚ) :
    List String :=
  ((nlargest1 (candidatePairs word possibilities cutoff)).map (fun p => p.2)).toList

/-- Acceptance is equivalent to the plain ratio test, because the two
quick ratios are upper bounds for the ratio. -/
theorem acceptable_iff (word x : String) (cutoff : ℚ) :
    acceptable word x cutoff = true ↔ cutoff ≤ ratio x.data word.data := by
  unfold acceptable
  simp only [Bool.and_eq_true, decide_eq_true_eq]
  constructor
  · intro h
    exact h.2
  · intro h
    refine ⟨⟨?_, ?_⟩, h⟩
    · exact le_trans h (ratio_le_realQuickRatio _ _)
    · exact le_trans h (ratio_le_quickRatio _ _)

/-- A returned match is a possibility whose ratio clears the cutoff. -/
theorem getCloseMatches1_mem {word : String} {ps : List String} {cutoff : ℚ} {m : String}
    (h : m ∈ getCloseMatches1 word ps cutoff) :
    m ∈ ps ∧ cutoff ≤ ratio m.data word.data := by
  unfold getCloseMatches1 at h
  match hr : nlargest1 (candidatePairs word ps cutoff) with
  | none => rw [hr] at h; simp at h
  | some p =>
    rw [hr] at h
    simp at h
    subst h
    have hmem := nlargest1_aux_mem _ none p hr
    rcases hmem with habs | hmem
    · simp at habs
    · unfold candidatePairs at hmem
      obtain ⟨x, hx, he⟩ := List.mem_map.mp hmem
      obtain ⟨hxin, hxacc⟩ := List.mem_filter.mp hx
      rw [← he]
      refine ⟨hxin, ?_⟩
      have := (acceptable_iff word x cutoff).mp hxacc
      simpa using this

/-- A returned match has maximal ratio among all possibilities. -/
theorem getCloseMatches1_max {word : String} {ps : List String} {cutoff : ℚ} {m : String}
    (h : m ∈ getCloseMatches1 word ps cutoff) :
    ∀ x ∈ ps, ratio x.data word.data ≤ ratio m.data word.data := by
  intro x hx
  have hm := getCloseMatches1_mem h
  unfold getCloseMatches1 at h
  match hr : nlargest1 (candidatePairs word ps cutoff) with
  | none => rw [hr] at h; simp at h
  | some p =>
    rw [hr] at h
    simp at h
    subst h
    by_cases hacc : acceptable word x cutoff = true
    · have hpair : (ratio x.data word.data, x) ∈ candidatePairs word ps cutoff := by
        unfold candidatePairs
        exact List.mem_map.mpr ⟨x, List.mem_filter.mpr ⟨hx, hacc⟩, rfl⟩
      have hmax := (nlargest1_aux_max _ none p hr).2 _ hpair
      -- the winning pair's first coordinate is the ratio of its word
      have hpr : p.1 = ratio p.2.data word.data := by
        have hmem := nlargest1_aux_mem _ none p hr
        rcases hmem with habs | hmem
        · simp at habs
        · unfold candidatePairs at hmem
          obtain ⟨y, hy, he⟩ := List.mem_map.mp hmem
          rw [← he]
      by_contra hlt
      push_neg at hlt
      apply hmax
      exact Or.inl (hpr.trans_lt hlt)
    · have hxlt : ¬ cutoff ≤ ratio x.data word.data := by
        intro hc
        exact hacc ((acceptable_iff word x cutoff).mpr hc)
      push_neg at hxlt
      have h2 := hm.2
      linarith

/-- An empty result means every possibility is below the cutoff. -/
theorem getCloseMatches1_empty {word : String} {ps : List String} {cutoff : ℚ}
    (h : getCloseMatches1 word ps cutoff = []) :
    ∀ x ∈ ps, ratio x.data word.data < cutoff := by
  intro x hx
  by_contra hge
  push_neg at hge
  have hacc : acceptable word x cutoff = true := (acceptable_iff word x cutoff).mpr hge
  have hpair : (ratio x.data word.data, x) ∈ candidatePairs word ps cutoff := by
    unfold candidatePairs
    exact List.mem_map.mpr ⟨x, List.mem_filter.mpr ⟨hx, hacc⟩, rfl⟩
  unfold getCloseMatches1 at h
  match hr : nlargest1 (candidatePairs word ps cutoff) with
  | some p => rw [hr] at h; simp at h
  | none =>
    have := (nlargest1_aux_none _ none hr).2
    rw [this] at hpair
    simp at hpair

end Difflib

namespace Difflib

/-- Every collected pair carries the ratio of its own word. -/
theorem candidate_fst {word : String} {ps : List String} {cutoff : ℚ} {p : ℚ × String}
    (h : p ∈ candidatePairs word ps cutoff) :
    p.1 = ratio p.2.data word.data ∧ p.2 ∈ ps := by
  unfold candidatePairs at h
  obtain ⟨x, hx, he⟩ := List.mem_map.mp h
  obtain ⟨hxin, _⟩ := List.mem_filter.mp hx
  rw [← he]
  exact ⟨rfl, hxin⟩

/-- A verbatim member of the possibilities is returned (its ratio is `1`,
which is maximal, and a perfect ratio pins the word down). -/
theorem getCloseMatches1_exact {word : String} {ps : List String} {cutoff : ℚ}
    (hw : word ∈ ps) (hc : cutoff ≤ 1) :
    getCloseMatches1 word ps cutoff = [word] := by
  have hr1 : ratio word.data word.data = 1 := ratio_self _
  have hacc : acceptable word word cutoff = true :=
    (acceptable_iff word word cutoff).mpr (by rw [hr1]; exact hc)
  have hpair : ((1 : ℚ), word) ∈ candidatePairs word ps cutoff := by
    unfold candidatePairs
    refine List.mem_map.mpr ⟨word, List.mem_filter.mpr ⟨hw, hacc⟩, ?_⟩
    rw [hr1]
  match hres : nlargest1 (candidatePairs word ps cutoff) with
  | none =>
    have hnil := (nlargest1_aux_none _ none hres).2
    rw [hnil] at hpair
    simp at hpair
  | some p =>
    have hmax := (nlargest1_aux_max _ none p hres).2 _ hpair
    have hpmem : p ∈ candidatePairs word ps cutoff := by
      rcases nlargest1_aux_mem _ none p hres with habs | hmem
      · simp at habs
      · exact hmem
    have hpr := (candidate_fst hpmem).1
    have hle : ratio p.2.data word.data ≤ 1 := ratio_le_one _ _
    have hge : (1 : ℚ) ≤ p.1 := by
      by_contra hlt
      push_neg at hlt
      exact hmax (Or.inl hlt)
    have hreq : ratio p.2.data word.data = 1 := le_antisymm hle (by rw [← hpr]; exact hge)
    have hdata : p.2.data = word.data := ratio_eq_one _ _ hreq
    have hstr : p.2 = word := String.ext hdata
    unfold getCloseMatches1
    rw [hres]
    simp [hstr]

end Difflib

namespace KingdomRank

/-- `find_closest_name(target_name, name_list)` (lines 124-127 of
`src/app.py`): non-string cell values (missing names become NaN, and JSON
numbers, booleans or nulls stay non-strings) return `None`; otherwise the
first (only, since `n=1`) result of
`difflib.get_close_matches(target_name, name_list, n=1, cutoff=0.6)`,
or `None` when there is no match. -/
def find_closest_name (target : Option JVal) (nameList : List String) : Option String :=
  match target with
  | some (.str s) =>
    match Difflib.getCloseMatches1 s nameList Difflib.cutoffQ with
    | [] => none
    | m :: _ => some m
  | _ => none

/-- One row of the uploaded roster file (名前/コード columns, both coerced
to text by `astype(str)`). -/
structure RosterEntry where
  name : String
  code : String
deriving DecidableEq, Repr

/-- A displayed row after the reconciliation join inserted the 登録名 and
盟員コード columns. -/
structure EnrichedRow where
  row : Row
  matchedName : String
  code : String
deriving DecidableEq, Repr

/-- `master_df[master_df['名前'] == best]['コード'].values[0]`: the code of
the first roster entry whose name equals `best`; `none` models the
`IndexError` that an empty selection would raise. -/
def lookupCode (roster : List RosterEntry) (best : String) : Option String :=
  (roster.find? (fun e => e.name = best)).map (fun e => e.code)

/-- One iteration of the reconciliation loop (lines 221-229 of
`src/app.py`): match the row's extracted name against the roster names;
on a match attach the matched name and its code, otherwise the sentinel
pair `("不明", "-")`. -/
def enrichRow (roster : List RosterEntry) (r : Row) : Option EnrichedRow :=
  match find_closest_name r.name (roster.map (fun e => e.name)) with
  | some best =>
    match lookupCode roster best with
    | some code => some ⟨r, best, code⟩
    | none => none
  | none => some ⟨r, "不明", "-"⟩

/-- The whole reconciliation join (lines 218-231): a row-wise traversal
that appends one matched name and one code per row and inserts them as
columns, leaving the original columns untouched. -/
def reconcile (roster : List RosterEntry) : List Row → Option (List EnrichedRow)
  | [] => some []
  | r :: rest =>
    match enrichRow roster r, reconcile roster rest with
    | some e, some es => some (e :: es)
    | _, _ => none

/-- Result of one iteration of the image loop, as far as the accumulator
is concerned: either some stage raised (API call, `response.text`,
`json.loads`) and `except: pass` swallowed it, or a JSON value was parsed
(an array of records, or something that is not an array). -/
inductive PyVal where
  | jlist (records : List RawRecord)
  | nonList
deriving DecidableEq, Repr

/-- Oracle outcome of the inference call and parse for one image. -/
inductive ImageOutcome where
  | exn
  | parsed (v : PyVal)
deriving DecidableEq, Repr

/-- The accumulation loop of `analyze_images_with_gemini`
(lines 138-155): `all_data.extend(json_data)` exactly when the parsed
value is a list; every failure mode contributes nothing and the loop
continues with the next image. -/
def accumulate (outcomes : List ImageOutcome) : List RawRecord :=
  outcomes.foldl
    (fun all_data o =>
      match o with
      | .parsed (.jlist l) => all_data ++ l
      | _ => all_data)
    []

/-- Modelled from the spec (section 4.1): the records an image
contributes — its parsed array for a successful image, nothing for any of
the three failure modes. -/
def imageRecords : ImageOutcome → List RawRecord
  | .parsed (.jlist l) => l
  | _ => []

/-- Modelled from the spec (section 4.1): the concatenation, in image
order, of the records of the successful images. -/
def specBatchRecords (outcomes : List ImageOutcome) : List RawRecord :=
  (outcomes.map imageRecords).flatten

/-- `analyze_images_with_gemini` (lines 129-168): the accumulation loop
followed by the record normalizer. -/
def analyze_images_with_gemini (outcomes : List ImageOutcome) : Except PipeError (List Row) :=
  normalize (accumulate outcomes)

/-- Substring test over character lists (Python `needle in hay`). -/
def containsSubAux (n : List Char) : List Char → Bool
  | [] => n.isEmpty
  | c :: rest => n.isPrefixOf (c :: rest) || containsSubAux n rest

/-- Python's `in` operator on strings. -/
def containsSub (needle hay : String) : Bool :=
  containsSubAux needle.data hay.data

/-- The hardcoded fallback model identifier of `get_best_model`. -/
def fallbackModel : String := "gemini-1.5-flash"

/-- `get_best_model` (lines 112-122 of `src/app.py`): over the available
model names (or `none` when listing them raised), return the first whose
name contains both "flash" and "latest", else the first containing
"flash", else the hardcoded fallback.  (There is no "pro" step.) -/
def get_best_model (availableModels : Option (List String)) : String :=
  match availableModels with
  | none => fallbackModel
  | some ms =>
    match ms.find? (fun m => containsSub "flash" m && containsSub "latest" m) with
    | some m => m
    | none =>
      match ms.find? (fun m => containsSub "flash" m) with
      | some m => m
      | none => fallbackModel

/-- What the module-level result block (lines 216-254) shows the user. -/
inductive Display where
  | plainTable (rows : List Row)
  | enrichedTable (rows : List EnrichedRow)
  | nothingExtracted
  | crashed (e : PipeError)
deriving DecidableEq, Repr

/-- The module-level pipeline around the button press (lines 212-254):
run `analyze_images_with_gemini`; an uncaught exception crashes the run;
an empty table shows the 判読できませんでした error message
("nothing extracted", line 254); otherwise the table is rendered, enriched
through the reconciliation join when a roster was loaded. -/
def runApp (outcomes : List ImageOutcome) (roster : Option (List RosterEntry)) : Display :=
  match analyze_images_with_gemini outcomes with
  | .error e => .crashed e
  | .ok rows =>
    if rows.isEmpty then .nothingExtracted
    else
      match roster with
      | none => .plainTable rows
      | some ro =>
        match reconcile ro rows with
        | some enr => .enrichedTable enr
        | none => .crashed .keyError

/-- Normalized similarity used in the matcher theorems:
`SequenceMatcher(None, entry, candidate).ratio()` with the candidate as
`seq2`, exactly as `get_close_matches` computes it. -/
def similarity (entry candidate : String) : ℚ :=
  Difflib.ratio entry.data candidate.data

end KingdomRank

namespace KingdomRank

/-- `dedupStep` never drops what is already kept. -/
theorem dedupStep_mono {acc : List RawRecord} {r x : RawRecord} (h : x ∈ acc) :
    x ∈ dedupStep acc r := by
  unfold dedupStep
  split
  · exact h
  · exact List.mem_append_left _ h

/-- The dedup fold never drops what is already kept. -/
theorem foldl_dedupStep_mono :
    ∀ (rs : List RawRecord) (acc : List RawRecord) (x : RawRecord),
      x ∈ acc → x ∈ rs.foldl dedupStep acc := by
  intro rs
  induction rs with
  | nil => intro acc x h; exact h
  | cons r rest ih =>
    intro acc x h
    exact ih _ x (dedupStep_mono h)

/-- Everything the dedup fold keeps came from the accumulator or the input. -/
theorem foldl_dedupStep_sub :
    ∀ (rs : List RawRecord) (acc : List RawRecord) (x : RawRecord),
      x ∈ rs.foldl dedupStep acc → x ∈ acc ∨ x ∈ rs := by
  intro rs
  induction rs with
  | nil => intro acc x h; exact Or.inl h
  | cons r rest ih =>
    intro acc x h
    rcases ih (dedupStep acc r) x h with hacc | hrest
    · unfold dedupStep at hacc
      split at hacc
      · exact Or.inl hacc
      · rcases List.mem_append.mp hacc with h1 | h2
        · exact Or.inl h1
        · right
          simp only [List.mem_singleton] at h2
          rw [h2]
          exact List.mem_cons_self _ _
    · exact Or.inr (List.mem_cons_of_mem _ hrest)

/-- Deduplication keeps a representative of every key. -/
theorem foldl_dedupStep_covers :
    ∀ (rs : List RawRecord) (acc : List RawRecord) (r : RawRecord), r ∈ rs →
      ∃ x ∈ rs.foldl dedupStep acc, dedupKey x = dedupKey r := by
  intro rs
  induction rs with
  | nil => intro acc r h; simp at h
  | cons r0 rest ih =>
    intro acc r h
    rcases List.mem_cons.mp h with he | hm
    · subst he
      have hstep : ∃ x ∈ dedupStep acc r, dedupKey x = dedupKey r := by
        unfold dedupStep
        by_cases hany : acc.any (fun x => dedupKey x = dedupKey r) = true
        · rw [if_pos hany]
          obtain ⟨x, hx, he⟩ := List.any_eq_true.mp hany
          exact ⟨x, hx, by simpa using he⟩
        · rw [if_neg hany]
          exact ⟨r, List.mem_append_right _ (List.mem_singleton_self r), rfl⟩
      obtain ⟨x, hx, he⟩ := hstep
      exact ⟨x, foldl_dedupStep_mono rest _ x hx, he⟩
    · exact ih _ r hm

/-- Deduplication keeps at most one record per key. -/
theorem foldl_dedupStep_pairwise :
    ∀ (rs : List RawRecord) (acc : List RawRecord),
      acc.Pairwise (fun x y => dedupKey x ≠ dedupKey y) →
      (rs.foldl dedupStep acc).Pairwise (fun x y => dedupKey x ≠ dedupKey y) := by
  intro rs
  induction rs with
  | nil => intro acc h; exact h
  | cons r rest ih =>
    intro acc h
    apply ih
    unfold dedupStep
    split
    case isTrue => exact h
    case isFalse hany =>
      rw [List.pairwise_append]
      refine ⟨h, List.pairwise_singleton _ _, ?_⟩
      intro x hx y hy
      simp only [List.mem_singleton] at hy
      subst hy
      have hfalse : acc.any (fun z => dedupKey z = dedupKey y) = false :=
        Bool.eq_false_iff.mpr hany
      have := List.any_eq_false.mp hfalse x hx
      simpa using this

/-- The three post-dedup facts of the normalizer on well-columned input:
it succeeds, every output row is the coercion of an input record, and
every input record has a kept representative with its key. -/
theorem normalize_ok (rs : List RawRecord)
    (h1 : ∃ r ∈ rs, r.rank.isSome = true) (h2 : ∃ r ∈ rs, r.name.isSome = true) :
    normalize rs = .ok (((dedup rs).map toRow).insertionSort rowLe) := by
  obtain ⟨r1, hr1, hr1s⟩ := h1
  obtain ⟨r2, hr2, hr2s⟩ := h2
  unfold normalize
  rw [if_neg, if_neg]
  · intro hor
    rcases hor with hc | hc
    · exact hc (List.any_eq_true.mpr ⟨r1, hr1, hr1s⟩)
    · exact hc (List.any_eq_true.mpr ⟨r2, hr2, hr2s⟩)
  · intro hc
    rw [List.isEmpty_iff] at hc
    rw [hc] at hr1
    simp at hr1

end KingdomRank

namespace KingdomRank

/-- C1 (counterexample).  The claim says a malformed score value is
nulled.  On the record `{rank: "N/A", name: "A", score: "abc"}` the
normalizer does not raise and nulls the malformed rank, but the malformed
score survives verbatim as the string `"abc"` — it is neither missing nor
null. -/
theorem claim_C1_counterexample :
    normalize [⟨some (JVal.str "N/A"), some (JVal.str "A"), some (JVal.str "abc")⟩]
        = .ok [⟨none, some (JVal.str "A"), some (JVal.str "abc")⟩]
      ∧ ¬ ((⟨none, some (JVal.str "A"), some (JVal.str "abc")⟩ : Row).score = none
            ∨ (⟨none, some (JVal.str "A"), some (JVal.str "abc")⟩ : Row).score
                = some JVal.null) :=
  ⟨rfl, by decide⟩

/-- C1 (amended).  On every input whose assembled table has both key
columns (some record carries a rank key and some record carries a name
key), the Record Normalizer never raises: it returns a table in which
every row comes from an input record with its rank coerced
(`pd.to_numeric(..., errors='coerce')`, nulling malformed values) and its
name and score fields passed through unchanged — a malformed score is
retained verbatim, not nulled — and every input record is retained up to
first-occurrence deduplication of its raw (rank, name) key. -/
theorem claim_C1 (rs : List RawRecord)
    (h1 : ∃ r ∈ rs, r.rank.isSome = true) (h2 : ∃ r ∈ rs, r.name.isSome = true) :
    ∃ rows, normalize rs = .ok rows
      ∧ (∀ row ∈ rows, ∃ r ∈ rs,
          row.rank = toNumericCell r.rank ∧ row.name = r.name ∧ row.score = r.score)
      ∧ (∀ r ∈ rs, ∃ x ∈ rs, dedupKey x = dedupKey r ∧ toRow x ∈ rows) := by
  refine ⟨_, normalize_ok rs h1 h2, ?_, ?_⟩
  · intro row hrow
    have hperm := List.perm_insertionSort rowLe ((dedup rs).map toRow)
    have hmem : row ∈ (dedup rs).map toRow := hperm.mem_iff.mp hrow
    obtain ⟨x, hx, he⟩ := List.mem_map.mp hmem
    have hxrs : x ∈ rs := by
      rcases foldl_dedupStep_sub rs [] x hx with habs | hok
      · simp at habs
      · exact hok
    exact ⟨x, hxrs, by rw [← he]; exact ⟨rfl, rfl, rfl⟩⟩
  · intro r hr
    obtain ⟨x, hx, hk⟩ := foldl_dedupStep_covers rs [] r hr
    have hxrs : x ∈ rs := by
      rcases foldl_dedupStep_sub rs [] x hx with habs | hok
      · simp at habs
      · exact hok
    refine ⟨x, hxrs, hk, ?_⟩
    have hperm := List.perm_insertionSort rowLe ((dedup rs).map toRow)
    exact hperm.mem_iff.mpr (List.mem_map.mpr ⟨x, hx, rfl⟩)

/-- Witness for C1 at a concrete record with malformed rank and score. -/
theorem claim_C1_witness :
    (∃ r ∈ [(⟨some (JVal.str "N/A"), some (JVal.str "A"), some (JVal.str "abc")⟩ : RawRecord)],
        r.rank.isSome = true)
    ∧ (∃ r ∈ [(⟨some (JVal.str "N/A"), some (JVal.str "A"), some (JVal.str "abc")⟩ : RawRecord)],
        r.name.isSome = true)
    ∧ (∃ rows,
        normalize [⟨some (JVal.str "N/A"), some (JVal.str "A"), some (JVal.str "abc")⟩]
            = .ok rows
        ∧ (∀ row ∈ rows,
            ∃ r ∈ [(⟨some (JVal.str "N/A"), some (JVal.str "A"), some (JVal.str "abc")⟩ : RawRecord)],
              row.rank = toNumericCell r.rank ∧ row.name = r.name ∧ row.score = r.score)
        ∧ (∀ r ∈ [(⟨some (JVal.str "N/A"), some (JVal.str "A"), some (JVal.str "abc")⟩ : RawRecord)],
            ∃ x ∈ [(⟨some (JVal.str "N/A"), some (JVal.str "A"), some (JVal.str "abc")⟩ : RawRecord)],
              dedupKey x = dedupKey r ∧ toRow x ∈ rows)) :=
  ⟨by decide, by decide, claim_C1 _ (by decide) (by decide)⟩

end KingdomRank

namespace KingdomRank

/-- C2 (counterexample).  The claim says records whose names agree and
whose ranks coerce to the same number are merged into one row.  For the
JSON number `1` and the string `"1"` (same name `"A"`) both ranks coerce
to `1`, yet the output table has two rows — deduplication ran before the
coercion, on the raw values. -/
theorem claim_C2_counterexample :
    toNumericCell (some (JVal.num 1)) = toNumericCell (some (JVal.str "1"))
    ∧ normalize [⟨some (JVal.num 1), some (JVal.str "A"), some (JVal.num 100)⟩,
                 ⟨some (JVal.str "1"), some (JVal.str "A"), some (JVal.num 90)⟩]
        = .ok [⟨some 1, some (JVal.str "A"), some (JVal.num 100)⟩,
               ⟨some 1, some (JVal.str "A"), some (JVal.num 90)⟩] :=
  ⟨rfl, rfl⟩

/-- C2 (amended).  Deduplication precedes rank coercion, so its key is
the raw (rank, name) cell pair: two records with distinct raw keys are
both kept — even when their ranks coerce to the same number — as long as
the table has its key columns. -/
theorem claim_C2 (r1 r2 : RawRecord) (hk : dedupKey r1 ≠ dedupKey r2)
    (h1 : r1.rank.isSome = true ∨ r2.rank.isSome = true)
    (h2 : r1.name.isSome = true ∨ r2.name.isSome = true) :
    ∃ rows, normalize [r1, r2] = .ok rows ∧ rows.length = 2
      ∧ toRow r1 ∈ rows ∧ toRow r2 ∈ rows := by
  have hd : dedup [r1, r2] = [r1, r2] := by
    show dedupStep (dedupStep [] r1) r2 = [r1, r2]
    have h1s : dedupStep [] r1 = [r1] := by
      unfold dedupStep
      rw [if_neg (by simp)]
      rfl
    rw [h1s]
    unfold dedupStep
    rw [if_neg]
    · rfl
    · simp only [List.any_cons, List.any_nil, Bool.or_false, decide_eq_true_eq]
      simpa using hk
  have hok := normalize_ok [r1, r2]
    (by rcases h1 with hc | hc
        · exact ⟨r1, by simp, hc⟩
        · exact ⟨r2, by simp, hc⟩)
    (by rcases h2 with hc | hc
        · exact ⟨r1, by simp, hc⟩
        · exact ⟨r2, by simp, hc⟩)
  refine ⟨_, hok, ?_, ?_, ?_⟩
  · have hperm := List.perm_insertionSort rowLe ((dedup [r1, r2]).map toRow)
    rw [hperm.length_eq, hd]
    rfl
  · have hperm := List.perm_insertionSort rowLe ((dedup [r1, r2]).map toRow)
    apply hperm.mem_iff.mpr
    rw [hd]
    simp
  · have hperm := List.perm_insertionSort rowLe ((dedup [r1, r2]).map toRow)
    apply hperm.mem_iff.mpr
    rw [hd]
    simp

/-- Witness for C2 at the records `{1, "A", 100}` and `{"1", "A", 90}`. -/
theorem claim_C2_witness :
    dedupKey ⟨some (JVal.num 1), some (JVal.str "A"), some (JVal.num 100)⟩
        ≠ dedupKey ⟨some (JVal.str "1"), some (JVal.str "A"), some (JVal.num 90)⟩
    ∧ ∃ rows,
        normalize [⟨some (JVal.num 1), some (JVal.str "A"), some (JVal.num 100)⟩,
                   ⟨some (JVal.str "1"), some (JVal.str "A"), some (JVal.num 90)⟩]
          = .ok rows
        ∧ rows.length = 2
        ∧ toRow ⟨some (JVal.num 1), some (JVal.str "A"), some (JVal.num 100)⟩ ∈ rows
        ∧ toRow ⟨some (JVal.str "1"), some (JVal.str "A"), some (JVal.num 90)⟩ ∈ rows :=
  ⟨by decide, claim_C2 _ _ (by decide) (by decide) (by decide)⟩

end KingdomRank

namespace KingdomRank

/-- C5.  Whenever the Record Normalizer returns a table, consecutive
rows are ordered by `rankLe` (ascending numeric rank with NaN last), and
in particular no row with a failed (null) rank ever precedes a row with a
valid numeric rank. -/
theorem claim_C5 (rs : List RawRecord) (rows : List Row)
    (h : normalize rs = .ok rows) :
    rows.Pairwise rowLe
    ∧ ∀ i j (hi : i < rows.length) (hj : j < rows.length), i < j →
        (rows.get ⟨i, hi⟩).rank = none → (rows.get ⟨j, hj⟩).rank = none := by
  have hsorted : rows.Pairwise rowLe := by
    unfold normalize at h
    split at h
    · simp only [Except.ok.injEq] at h
      rw [← h]
      exact List.Pairwise.nil
    · split at h
      · simp at h
      · simp only [Except.ok.injEq] at h
        rw [← h]
        exact List.sorted_insertionSort rowLe _
  refine ⟨hsorted, ?_⟩
  intro i j hi hj hij hnone
  have hrel : rowLe (rows.get ⟨i, hi⟩) (rows.get ⟨j, hj⟩) := by
    have := List.pairwise_iff_get.mp hsorted ⟨i, hi⟩ ⟨j, hj⟩ hij
    exact this
  unfold rowLe rankLe at hrel
  rw [hnone] at hrel
  match hm : (rows.get ⟨j, hj⟩).rank with
  | none => rfl
  | some q =>
    rw [hm] at hrel
    simp at hrel

/-- Witness for C5 on the records with ranks 3, 1, "N/A", 2. -/
theorem claim_C5_witness :
    normalize [⟨some (JVal.num 3), some (JVal.str "C"), none⟩,
               ⟨some (JVal.num 1), some (JVal.str "A"), none⟩,
               ⟨some (JVal.str "N/A"), some (JVal.str "X"), none⟩,
               ⟨some (JVal.num 2), some (JVal.str "B"), none⟩]
        = .ok [⟨some 1, some (JVal.str "A"), none⟩,
               ⟨some 2, some (JVal.str "B"), none⟩,
               ⟨some 3, some (JVal.str "C"), none⟩,
               ⟨none, some (JVal.str "X"), none⟩]
    ∧ ([⟨some 1, some (JVal.str "A"), none⟩,
        ⟨some 2, some (JVal.str "B"), none⟩,
        ⟨some 3, some (JVal.str "C"), none⟩,
        (⟨none, some (JVal.str "X"), none⟩ : Row)].Pairwise rowLe
      ∧ ∀ i j (hi : i < ([⟨some 1, some (JVal.str "A"), none⟩,
            ⟨some 2, some (JVal.str "B"), none⟩,
            ⟨some 3, some (JVal.str "C"), none⟩,
            (⟨none, some (JVal.str "X"), none⟩ : Row)] : List Row).length)
          (hj : j < ([⟨some 1, some (JVal.str "A"), none⟩,
            ⟨some 2, some (JVal.str "B"), none⟩,
            ⟨some 3, some (JVal.str "C"), none⟩,
            (⟨none, some (JVal.str "X"), none⟩ : Row)] : List Row).length), i < j →
          (([⟨some 1, some (JVal.str "A"), none⟩,
            ⟨some 2, some (JVal.str "B"), none⟩,
            ⟨some 3, some (JVal.str "C"), none⟩,
            (⟨none, some (JVal.str "X"), none⟩ : Row)] : List Row).get ⟨i, hi⟩).rank = none →
          (([⟨some 1, some (JVal.str "A"), none⟩,
            ⟨some 2, some (JVal.str "B"), none⟩,
            ⟨some 3, some (JVal.str "C"), none⟩,
            (⟨none, some (JVal.str "X"), none⟩ : Row)] : List Row).get ⟨j, hj⟩).rank = none) :=
  ⟨rfl,
    claim_C5
      [⟨some (JVal.num 3), some (JVal.str "C"), none⟩,
       ⟨some (JVal.num 1), some (JVal.str "A"), none⟩,
       ⟨some (JVal.str "N/A"), some (JVal.str "X"), none⟩,
       ⟨some (JVal.num 2), some (JVal.str "B"), none⟩]
      [⟨some 1, some (JVal.str "A"), none⟩,
       ⟨some 2, some (JVal.str "B"), none⟩,
       ⟨some 3, some (JVal.str "C"), none⟩,
       ⟨none, some (JVal.str "X"), none⟩]
      rfl⟩

end KingdomRank

namespace KingdomRank

/-- C6 (counterexample).  The claim says no two output rows share the
same (rank, name) pair.  With raw ranks `1` (number) and `"1"` (string)
and the same name, deduplication — which runs on the raw cells before
coercion — keeps both records, and after coercion the two output rows
carry the identical (rank, name) pair `(1, "A")`. -/
theorem claim_C6_counterexample :
    normalize [⟨some (JVal.num 1), some (JVal.str "A"), some (JVal.num 100)⟩,
               ⟨some (JVal.str "1"), some (JVal.str "A"), some (JVal.num 90)⟩]
        = .ok [⟨some 1, some (JVal.str "A"), some (JVal.num 100)⟩,
               ⟨some 1, some (JVal.str "A"), some (JVal.num 90)⟩]
    ∧ ((⟨some 1, some (JVal.str "A"), some (JVal.num 100)⟩ : Row).rank
          = (⟨some 1, some (JVal.str "A"), some (JVal.num 90)⟩ : Row).rank
        ∧ (⟨some 1, some (JVal.str "A"), some (JVal.num 100)⟩ : Row).name
          = (⟨some 1, some (JVal.str "A"), some (JVal.num 90)⟩ : Row).name)
    ∧ (⟨some 1, some (JVal.str "A"), some (JVal.num 100)⟩ : Row)
        ≠ ⟨some 1, some (JVal.str "A"), some (JVal.num 90)⟩ :=
  ⟨rfl, ⟨rfl, rfl⟩, by decide⟩

/-- C6 (amended).  Two records with the identical raw (rank, name) key
collapse to one output row, specifically the coercion of the first
encountered (whatever their scores); and the kept records are pairwise
distinct in their raw keys.  Uniqueness of the coerced (rank, name)
pairs of the output does not hold (distinct raw ranks may coerce
equal). -/
theorem claim_C6 :
    (∀ rs : List RawRecord, (dedup rs).Pairwise (fun x y => dedupKey x ≠ dedupKey y))
    ∧ ∀ r1 r2 : RawRecord, dedupKey r1 = dedupKey r2 →
        (r1.rank.isSome = true ∨ r2.rank.isSome = true) →
        (r1.name.isSome = true ∨ r2.name.isSome = true) →
        normalize [r1, r2] = .ok [toRow r1] := by
  constructor
  · intro rs
    exact foldl_dedupStep_pairwise rs [] List.Pairwise.nil
  · intro r1 r2 hk h1 h2
    have hd : dedup [r1, r2] = [r1] := by
      show dedupStep (dedupStep [] r1) r2 = [r1]
      have h1s : dedupStep [] r1 = [r1] := by
        unfold dedupStep
        rw [if_neg (by simp)]
        rfl
      rw [h1s]
      unfold dedupStep
      rw [if_pos]
      simp only [List.any_cons, List.any_nil, Bool.or_false, decide_eq_true_eq]
      exact hk
    have hok := normalize_ok [r1, r2]
      (by rcases h1 with hc | hc
          · exact ⟨r1, by simp, hc⟩
          · exact ⟨r2, by simp, hc⟩)
      (by rcases h2 with hc | hc
          · exact ⟨r1, by simp, hc⟩
          · exact ⟨r2, by simp, hc⟩)
    rw [hok, hd]
    show Except.ok (([toRow r1] : List Row).insertionSort rowLe) = Except.ok [toRow r1]
    rw [List.perm_singleton.mp (List.perm_insertionSort rowLe [toRow r1])]

/-- Witness for C6 at two records sharing rank 2 and name "B" with
different scores: the first one is kept. -/
theorem claim_C6_witness :
    dedupKey ⟨some (JVal.num 2), some (JVal.str "B"), some (JVal.num 50)⟩
        = dedupKey ⟨some (JVal.num 2), some (JVal.str "B"), some (JVal.num 60)⟩
    ∧ normalize [⟨some (JVal.num 2), some (JVal.str "B"), some (JVal.num 50)⟩,
                 ⟨some (JVal.num 2), some (JVal.str "B"), some (JVal.num 60)⟩]
        = .ok [toRow ⟨some (JVal.num 2), some (JVal.str "B"), some (JVal.num 50)⟩] :=
  ⟨by decide,
    claim_C6.2 ⟨some (JVal.num 2), some (JVal.str "B"), some (JVal.num 50)⟩
      ⟨some (JVal.num 2), some (JVal.str "B"), some (JVal.num 60)⟩
      (by decide) (by decide) (by decide)⟩

end KingdomRank

namespace KingdomRank

/-- Reduction of `find_closest_name` on a string cell. -/
theorem find_closest_name_str (s : String) (l : List String) :
    find_closest_name (some (JVal.str s)) l
      = match Difflib.getCloseMatches1 s l Difflib.cutoffQ with
        | [] => none
        | m :: _ => some m := rfl

/-- C3.  For every string candidate and non-empty roster, the Name
Matcher returns a roster entry of maximal similarity to the candidate
whenever that similarity reaches the 0.6 cutoff, returns no-match when
every entry falls below the cutoff, and returns a verbatim roster member
itself, with the maximal similarity 1. -/
theorem claim_C3 (candidate : String) (roster : List String) (hne : roster ≠ []) :
    (∀ w, find_closest_name (some (JVal.str candidate)) roster = some w →
        w ∈ roster ∧ Difflib.cutoffQ ≤ similarity w candidate
          ∧ ∀ x ∈ roster, similarity x candidate ≤ similarity w candidate)
    ∧ (find_closest_name (some (JVal.str candidate)) roster = none →
        ∀ x ∈ roster, similarity x candidate < Difflib.cutoffQ)
    ∧ (candidate ∈ roster →
        find_closest_name (some (JVal.str candidate)) roster = some candidate
          ∧ similarity candidate candidate = 1) := by
  refine ⟨?_, ?_, ?_⟩
  · intro w hw
    rw [find_closest_name_str] at hw
    match hres : Difflib.getCloseMatches1 candidate roster Difflib.cutoffQ with
    | [] => rw [hres] at hw; simp at hw
    | m :: rest =>
      rw [hres] at hw
      have hw2 : m = w := by simpa using hw
      subst hw2
      have hmem : m ∈ Difflib.getCloseMatches1 candidate roster Difflib.cutoffQ := by
        rw [hres]
        exact List.mem_cons_self _ _
      have h1 := Difflib.getCloseMatches1_mem hmem
      have h2 := Difflib.getCloseMatches1_max hmem
      exact ⟨h1.1, h1.2, h2⟩
  · intro hnone x hx
    rw [find_closest_name_str] at hnone
    match hres : Difflib.getCloseMatches1 candidate roster Difflib.cutoffQ with
    | m :: rest => rw [hres] at hnone; simp at hnone
    | [] =>
      exact Difflib.getCloseMatches1_empty hres x hx
  · intro hc
    have hex := @Difflib.getCloseMatches1_exact candidate roster Difflib.cutoffQ
      hc (by norm_num [Difflib.cutoffQ])
    constructor
    · rw [find_closest_name_str, hex]
    · unfold similarity
      exact Difflib.ratio_self _

/-- Witness for C3 with the roster ["Alice", "Alicia"]. -/
theorem claim_C3_witness :
    (["Alice", "Alicia"] : List String) ≠ []
    ∧ ((∀ w, find_closest_name (some (JVal.str "Alice")) ["Alice", "Alicia"] = some w →
          w ∈ ["Alice", "Alicia"] ∧ Difflib.cutoffQ ≤ similarity w "Alice"
            ∧ ∀ x ∈ ["Alice", "Alicia"], similarity x "Alice" ≤ similarity w "Alice")
      ∧ (find_closest_name (some (JVal.str "Alice")) ["Alice", "Alicia"] = none →
          ∀ x ∈ ["Alice", "Alicia"], similarity x "Alice" < Difflib.cutoffQ)
      ∧ ("Alice" ∈ ["Alice", "Alicia"] →
          find_closest_name (some (JVal.str "Alice")) ["Alice", "Alicia"] = some "Alice"
            ∧ similarity "Alice" "Alice" = 1)) :=
  ⟨by decide, claim_C3 "Alice" ["Alice", "Alicia"] (by decide)⟩

end KingdomRank

namespace KingdomRank

/-- The accumulation fold, started from any prefix, appends exactly the
per-image record lists. -/
theorem accumulate_aux :
    ∀ (outcomes : List ImageOutcome) (acc : List RawRecord),
      outcomes.foldl
          (fun all_data o =>
            match o with
            | .parsed (.jlist l) => all_data ++ l
            | _ => all_data)
          acc
        = acc ++ specBatchRecords outcomes := by
  intro outcomes
  induction outcomes with
  | nil =>
    intro acc
    simp [specBatchRecords]
  | cons o rest ih =>
    intro acc
    rw [List.foldl_cons]
    match o with
    | .exn =>
      rw [ih]
      simp [specBatchRecords, imageRecords]
    | .parsed .nonList =>
      rw [ih]
      simp [specBatchRecords, imageRecords]
    | .parsed (.jlist l) =>
      rw [ih]
      simp [specBatchRecords, imageRecords]

/-- C4.  The accumulation loop of the Batch Extractor never aborts and
collects exactly the records of the successful images, in image order:
it equals the spec-side concatenation in which a failed inference call, a
parse failure, and a parsed non-array value all contribute zero records,
and deleting such a failing image from the batch leaves the collected
records unchanged. -/
theorem claim_C4 :
    (∀ outcomes : List ImageOutcome, accumulate outcomes = specBatchRecords outcomes)
    ∧ (∀ bad : ImageOutcome, bad = .exn ∨ bad = .parsed .nonList → imageRecords bad = [])
    ∧ (∀ (pre post : List ImageOutcome) (bad : ImageOutcome),
        bad = .exn ∨ bad = .parsed .nonList →
        accumulate (pre ++ bad :: post) = accumulate (pre ++ post)) := by
  have hacc : ∀ outcomes : List ImageOutcome, accumulate outcomes = specBatchRecords outcomes := by
    intro outcomes
    unfold accumulate
    rw [accumulate_aux]
    simp
  have hbad : ∀ bad : ImageOutcome, bad = .exn ∨ bad = .parsed .nonList →
      imageRecords bad = [] := by
    intro bad hb
    rcases hb with hb | hb
    · rw [hb]
      rfl
    · rw [hb]
      rfl
  refine ⟨hacc, hbad, ?_⟩
  intro pre post bad hb
  rw [hacc, hacc]
  unfold specBatchRecords
  rw [List.map_append, List.map_append, List.map_cons]
  rw [hbad bad hb]
  simp

/-- Witness for C4: a batch with one crashing image, one good image, and
one image whose output parses to a non-array. -/
theorem claim_C4_witness :
    ((ImageOutcome.exn = .exn ∨ ImageOutcome.exn = .parsed .nonList)
      ∧ accumulate [ImageOutcome.exn,
          .parsed (.jlist [⟨some (JVal.num 1), some (JVal.str "Bob"), some (JVal.num 100)⟩]),
          .parsed .nonList]
        = specBatchRecords [ImageOutcome.exn,
            .parsed (.jlist [⟨some (JVal.num 1), some (JVal.str "Bob"), some (JVal.num 100)⟩]),
            .parsed .nonList])
    ∧ accumulate ([ImageOutcome.parsed (.jlist [⟨some (JVal.num 1), some (JVal.str "Bob"),
          some (JVal.num 100)⟩])] ++ ImageOutcome.exn
            :: [ImageOutcome.parsed (.jlist [⟨some (JVal.num 2), some (JVal.str "Sam"),
                  some (JVal.num 90)⟩])])
        = accumulate ([ImageOutcome.parsed (.jlist [⟨some (JVal.num 1), some (JVal.str "Bob"),
            some (JVal.num 100)⟩])]
              ++ [ImageOutcome.parsed (.jlist [⟨some (JVal.num 2), some (JVal.str "Sam"),
                    some (JVal.num 90)⟩])]) :=
  ⟨⟨Or.inl rfl,
      claim_C4.1 [ImageOutcome.exn,
        .parsed (.jlist [⟨some (JVal.num 1), some (JVal.str "Bob"), some (JVal.num 100)⟩]),
        .parsed .nonList]⟩,
    claim_C4.2.2 _ _ ImageOutcome.exn (Or.inl rfl)⟩

end KingdomRank

namespace KingdomRank

/-- `find_closest_name` only ever answers with a member of the list. -/
theorem find_closest_name_mem {t : Option JVal} {l : List String} {w : String}
    (h : find_closest_name t l = some w) : w ∈ l := by
  match t with
  | none => simp [find_closest_name] at h
  | some .null => simp [find_closest_name] at h
  | some (.num q) => simp [find_closest_name] at h
  | some (.boolean b) => simp [find_closest_name] at h
  | some (.str s) =>
    rw [find_closest_name_str] at h
    match hres : Difflib.getCloseMatches1 s l Difflib.cutoffQ with
    | [] => rw [hres] at h; simp at h
    | m :: rest =>
      rw [hres] at h
      have hw2 : m = w := by simpa using h
      subst hw2
      exact (Difflib.getCloseMatches1_mem (by rw [hres]; exact List.mem_cons_self _ _)).1

/-- Every row enriches successfully, and enrichment never touches the
underlying row. -/
theorem enrichRow_total (roster : List RosterEntry) (r : Row) :
    ∃ e, enrichRow roster r = some e ∧ e.row = r := by
  unfold enrichRow
  match hm : find_closest_name r.name (roster.map (fun e => e.name)) with
  | none =>
    rw [hm]
    exact ⟨⟨r, "不明", "-"⟩, rfl, rfl⟩
  | some best =>
    rw [hm]
    have hbest : best ∈ roster.map (fun e => e.name) := find_closest_name_mem hm
    obtain ⟨e0, he0, hename⟩ := List.mem_map.mp hbest
    have hfind : (roster.find? (fun e => e.name = best)).isSome = true := by
      rw [List.find?_isSome]
      exact ⟨e0, he0, by simpa using hename⟩
    match hf : roster.find? (fun e => e.name = best) with
    | none => rw [hf] at hfind; simp at hfind
    | some ef =>
      refine ⟨⟨r, best, ef.code⟩, ?_, rfl⟩
      have hlook : lookupCode roster best = some ef.code := by
        unfold lookupCode
        rw [hf]
        rfl
      show (match lookupCode roster best with
        | some code => some (⟨r, best, code⟩ : EnrichedRow)
        | none => none) = some (⟨r, best, ef.code⟩ : EnrichedRow)
      rw [hlook]

/-- C7.  The Reconciliation Join is a pure row-wise map: it never fails,
its output has exactly as many rows as its input, in the same order, and
the rank, name and score values of each row pass through unchanged — only
the matched-name and code columns are attached. -/
theorem claim_C7 (rows : List Row) (roster : List RosterEntry) :
    ∃ out, reconcile roster rows = some out
      ∧ out.length = rows.length
      ∧ ∀ i (hi : i < rows.length) (ho : i < out.length),
          (out.get ⟨i, ho⟩).row = rows.get ⟨i, hi⟩ := by
  induction rows with
  | nil =>
    exact ⟨[], rfl, rfl, fun i hi ho => by simp at hi⟩
  | cons r rest ih =>
    obtain ⟨out, hout, hlen, hproj⟩ := ih
    obtain ⟨e, he, herow⟩ := enrichRow_total roster r
    refine ⟨e :: out, ?_, by simpa using hlen, ?_⟩
    · show (match enrichRow roster r, reconcile roster rest with
        | some e, some es => some (e :: es)
        | _, _ => none) = some (e :: out)
      rw [he, hout]
    · intro i hi ho
      match i with
      | 0 => simpa using herow
      | Nat.succ n =>
        simp only [List.get_cons_succ]
        exact hproj n (by simpa using hi) (by simpa using ho)

end KingdomRank

namespace KingdomRank

/-- Modelled from the spec (section 6): the preference order as the spec
states it, with a "pro" step between "flash" and the hardcoded fallback.
This definition follows the spec's words and exists only to be compared
with `get_best_model`, which is taken from the source. -/
def specBestModel (availableModels : Option (List String)) : String :=
  match availableModels with
  | none => fallbackModel
  | some ms =>
    match ms.find? (fun m => containsSub "flash" m && containsSub "latest" m) with
    | some m => m
    | none =>
      match ms.find? (fun m => containsSub "flash" m) with
      | some m => m
      | none =>
        match ms.find? (fun m => containsSub "pro" m) with
        | some m => m
        | none => fallbackModel

/-- C8 (counterexample).  On the model list `["gemini-pro"]` the claimed
preference order would pick `"gemini-pro"`, but `get_best_model` has no
"pro" step and falls through to the hardcoded fallback. -/
theorem claim_C8_counterexample :
    specBestModel (some ["gemini-pro"]) = "gemini-pro"
    ∧ get_best_model (some ["gemini-pro"]) = "gemini-1.5-flash"
    ∧ ("gemini-1.5-flash" : String) ≠ "gemini-pro" :=
  ⟨by decide, by decide, by decide⟩

/-- C8 (amended).  The auto-select-best-model logic evaluates: first a
model whose name contains both "flash" and "latest", then a model whose
name contains "flash", and finally the hardcoded fallback
`"gemini-1.5-flash"` — with no "pro" step; when listing the models raised,
the fallback is returned directly. -/
theorem claim_C8 :
    (∀ (ms : List String) (m : String),
        ms.find? (fun m2 => containsSub "flash" m2 && containsSub "latest" m2) = some m →
        get_best_model (some ms) = m)
    ∧ (∀ (ms : List String) (m : String),
        ms.find? (fun m2 => containsSub "flash" m2 && containsSub "latest" m2) = none →
        ms.find? (fun m2 => containsSub "flash" m2) = some m →
        get_best_model (some ms) = m)
    ∧ (∀ ms : List String,
        ms.find? (fun m2 => containsSub "flash" m2) = none →
        get_best_model (some ms) = fallbackModel)
    ∧ get_best_model none = fallbackModel := by
  have hred : ∀ ms : List String, get_best_model (some ms)
      = match ms.find? (fun m => containsSub "flash" m && containsSub "latest" m) with
        | some m => m
        | none =>
          match ms.find? (fun m => containsSub "flash" m) with
          | some m => m
          | none => fallbackModel := fun ms => rfl
  refine ⟨?_, ?_, ?_, rfl⟩
  · intro ms m h
    rw [hred, h]
  · intro ms m h1 h2
    rw [hred, h1, h2]
  · intro ms h
    have h1 : ms.find? (fun m2 => containsSub "flash" m2 && containsSub "latest" m2) = none := by
      rw [List.find?_eq_none] at h ⊢
      intro x hx hc
      simp only [Bool.and_eq_true] at hc
      exact (h x hx) hc.1
    rw [hred, h1, h]

/-- Witness for C8 on concrete model lists for each preference tier. -/
theorem claim_C8_witness :
    ((["gemini-2.0-pro", "gemini-1.5-flash-latest", "x-flash"] : List String).find?
          (fun m2 => containsSub "flash" m2 && containsSub "latest" m2)
        = some "gemini-1.5-flash-latest"
      ∧ get_best_model (some ["gemini-2.0-pro", "gemini-1.5-flash-latest", "x-flash"])
        = "gemini-1.5-flash-latest")
    ∧ ((["gemini-pro"] : List String).find? (fun m2 => containsSub "flash" m2) = none
      ∧ get_best_model (some ["gemini-pro"]) = fallbackModel) :=
  ⟨⟨by decide,
      claim_C8.1 ["gemini-2.0-pro", "gemini-1.5-flash-latest", "x-flash"]
        "gemini-1.5-flash-latest" (by decide)⟩,
    ⟨by decide, claim_C8.2.2.1 ["gemini-pro"] (by decide)⟩⟩

/-- C9.  When no image contributed any record, the pipeline returns the
empty table rather than raising, and the app surfaces this as the
explicit "nothing extracted" error message — an outcome distinct from a
crash. -/
theorem claim_C9 (outcomes : List ImageOutcome) (roster : Option (List RosterEntry))
    (h : accumulate outcomes = []) :
    analyze_images_with_gemini outcomes = .ok []
    ∧ runApp outcomes roster = .nothingExtracted
    ∧ ∀ e, runApp outcomes roster ≠ .crashed e := by
  have hana : analyze_images_with_gemini outcomes = .ok [] := by
    unfold analyze_images_with_gemini
    rw [h]
    rfl
  refine ⟨hana, ?_, ?_⟩
  · unfold runApp
    rw [hana]
    rfl
  · intro e
    unfold runApp
    rw [hana]
    simp

/-- Witness for C9: a batch of one crashing and one non-array image. -/
theorem claim_C9_witness :
    accumulate [ImageOutcome.exn, ImageOutcome.parsed .nonList] = []
    ∧ (analyze_images_with_gemini [ImageOutcome.exn, ImageOutcome.parsed .nonList] = .ok []
      ∧ runApp [ImageOutcome.exn, ImageOutcome.parsed .nonList] none = .nothingExtracted
      ∧ ∀ e, runApp [ImageOutcome.exn, ImageOutcome.parsed .nonList] none ≠ .crashed e) :=
  ⟨rfl, claim_C9 [ImageOutcome.exn, ImageOutcome.parsed .nonList] none rfl⟩

/-- C10.  A non-empty batch whose single image parses to a non-empty JSON
array of records without a `rank` key makes the normalization step raise
(`drop_duplicates` on the absent `順位` column is a `KeyError`) instead of
returning a table, and the whole run crashes. -/
theorem claim_C10 :
    accumulate [ImageOutcome.parsed (.jlist
        [⟨none, some (JVal.str "General"), some (JVal.num 5)⟩])]
      = [⟨none, some (JVal.str "General"), some (JVal.num 5)⟩]
    ∧ ([(⟨none, some (JVal.str "General"), some (JVal.num 5)⟩ : RawRecord)] : List RawRecord) ≠ []
    ∧ analyze_images_with_gemini [ImageOutcome.parsed (.jlist
        [⟨none, some (JVal.str "General"), some (JVal.num 5)⟩])]
      = .error .keyError
    ∧ runApp [ImageOutcome.parsed (.jlist
        [⟨none, some (JVal.str "General"), some (JVal.num 5)⟩])] none
      = .crashed .keyError :=
  ⟨rfl, by decide, rfl, rfl⟩

end KingdomRank
